import Mathlib

/-!
Line position iterator (`boost/spirit/home/support/iterators/line_pos_iterator.hpp`).

A shallow embedding of the `line_pos_iterator` adaptor and of the free functions
`get_line`, `get_line_start`, `get_line_end`, `get_current_line` and `get_column`.

Modelling conventions.

* A character sequence is a `List Nat` of code units; an underlying cursor
  (`Iterator`) into it is an index.  Dereferencing a cursor that is not inside the
  sequence is undefined in C++; the embedding returns `none` there.
* `std::size_t` is 64 bits wide: every `size_t` operation is carried out on `Nat`
  and reduced modulo `2 ^ 64`.
* A sequence that the iterator traverses unit by unit has fewer than `2 ^ 64 - 1`
  units; results on the line counter, which grows by at most one per unit, are stated
  for such sequences.  The `tabs` argument of `get_column` is any `size_t` value.
* A loop `for (Iterator i = a; i != b; ++i)` is a function recursing over the units
  that remain at `i`, carrying the index `i` itself.
-/

namespace Spirit

/-! ## Code units and `size_t` arithmetic -/

/-- The unit `'\n'`. -/
abbrev LF : Nat := 10

/-- The unit `'\r'`. -/
abbrev CR : Nat := 13

/-- The unit `'\t'`. -/
abbrev TAB : Nat := 9

/-- Number of values of `std::size_t`. -/
abbrev SIZE_RANGE : Nat := 2 ^ 64

/-- Conversion of an integer to `std::size_t` (as in `return -1;`). -/
def to_size_t (z : Int) : Nat := (z % (2 : Int) ^ 64).toNat

/-- Sum of two `size_t` values. -/
def size_add (a b : Nat) : Nat := (a + b) % SIZE_RANGE

/-- Difference of two `size_t` values (wraps below zero). -/
def size_sub (a b : Nat) : Nat := (a + SIZE_RANGE - b % SIZE_RANGE) % SIZE_RANGE

/-! ## The iterator adaptor -/

/-- The class `line_pos_iterator<Iterator>`: the adapted base cursor, the line
counter and the unit read by the previous increment. -/
structure line_pos_iterator (Iterator : Type) where
  /-- The base cursor held by `iterator_adaptor`. -/
  base : Iterator
  /-- The line position. -/
  line : Nat
  /-- The unit the previous increment read. -/
  prev : Nat
deriving DecidableEq

/-- Default constructor `line_pos_iterator()`: value-initialised base, `line(1)`,
`prev(0)`. -/
def line_pos_iterator.ctor_default {Iterator : Type} [Inhabited Iterator] :
    line_pos_iterator Iterator :=
  { base := default, line := 1, prev := 0 }

/-- Constructor `line_pos_iterator(Iterator base)`: `line(1)`, `prev(0)`. -/
def line_pos_iterator.ctor {Iterator : Type} (base : Iterator) :
    line_pos_iterator Iterator :=
  { base := base, line := 1, prev := 0 }

/-- Member `position()`: returns `line`. -/
def line_pos_iterator.position {Iterator : Type} (it : line_pos_iterator Iterator) : Nat :=
  it.line

/-- Member `increment()` over the sequence `s`: reads `ref = *base()`, bumps `line`
when `(prev != '\n' and ref == '\r') or (prev != '\r' and ref == '\n')`, stores
`prev = ref` and advances the base.  `none` when the base cannot be dereferenced. -/
def line_pos_iterator.increment (s : List Nat) (it : line_pos_iterator Nat) :
    Option (line_pos_iterator Nat) :=
  match s[it.base]? with
  | none => none
  | some ref =>
    some { base := it.base + 1
           line := if (it.prev ≠ LF ∧ ref = CR) ∨ (it.prev ≠ CR ∧ ref = LF)
                   then size_add it.line 1 else it.line
           prev := ref }

/-- The iterator after `n` applications of `operator++`. -/
def advance (s : List Nat) : Nat → line_pos_iterator Nat → Option (line_pos_iterator Nat)
  | 0, it => some it
  | n + 1, it =>
    match it.increment s with
    | none => none
    | some it1 => advance s n it1

/-! ## Utilities -/

/-- The argument of `get_line`: overload resolution picks the second overload
exactly when the argument is a `line_pos_iterator`. -/
inductive get_line_arg (Iterator : Type) where
  /-- Any iterator that is not a `line_pos_iterator`. -/
  | plain (i : Iterator)
  /-- A `line_pos_iterator<Iterator>`. -/
  | tracking (i : line_pos_iterator Iterator)

/-- The two overloads of `get_line`: `return -1;` for a plain iterator,
`return i.position();` for a `line_pos_iterator`. -/
def get_line {Iterator : Type} : get_line_arg Iterator → Nat
  | .plain _ => to_size_t (-1)
  | .tracking i => i.position

/-- The loop of `get_line_start`, at cursor `i` with the units from `i` on, followed
by the final `if(prev_was_newline) latest = current; return latest;`. -/
def get_line_start_loop (current : Nat) : List Nat → Nat → Nat → Bool → Option Nat
  | [], i, latest, prev_was_newline =>
    if i = current then some (if prev_was_newline then current else latest)
    else none
  | c :: rest, i, latest, prev_was_newline =>
    if i = current then some (if prev_was_newline then current else latest)
    else get_line_start_loop current rest (i + 1)
      (if prev_was_newline then i else latest) (c == CR || c == LF)

/-- Function `get_line_start(lower_bound, current)` on the sequence `s`. -/
def get_line_start (s : List Nat) (lower_bound current : Nat) : Option Nat :=
  get_line_start_loop current (s.drop lower_bound) lower_bound lower_bound false

/-- The loop of `get_line_end`, at cursor `i` with the units from `i` on. -/
def get_line_end_loop (upper_bound : Nat) : List Nat → Nat → Option Nat
  | [], i => if i = upper_bound then some upper_bound else none
  | c :: rest, i =>
    if i = upper_bound then some upper_bound
    else if c = LF ∨ c = CR then some i
    else get_line_end_loop upper_bound rest (i + 1)

/-- Function `get_line_end(current, upper_bound)` on the sequence `s`. -/
def get_line_end (s : List Nat) (current upper_bound : Nat) : Option Nat :=
  get_line_end_loop upper_bound (s.drop current) current

/-- Function `get_current_line(lower_bound, current, upper_bound)`: the range
`(first, last)`. -/
def get_current_line (s : List Nat) (lower_bound current upper_bound : Nat) :
    Option (Nat × Nat) :=
  match get_line_start s lower_bound current with
  | none => none
  | some first =>
    match get_line_end s current upper_bound with
    | none => none
    | some last => some (first, last)

/-- The loop of `get_column`, at cursor `i` with the units from `i` on.  A tab with
`tabs = 0` takes a remainder by zero, which is undefined: `none`. -/
def get_column_loop (current tabs : Nat) : List Nat → Nat → Nat → Option Nat
  | [], i, column => if i = current then some column else none
  | c :: rest, i, column =>
    if i = current then some column
    else if c = TAB then
      if tabs = 0 then none
      else get_column_loop current tabs rest (i + 1)
        (size_add column (size_sub tabs (size_sub column 1 % tabs)))
    else get_column_loop current tabs rest (i + 1) (size_add column 1)

/-- Function `get_column(lower_bound, current, tabs)` on the sequence `s`. -/
def get_column (s : List Nat) (lower_bound current tabs : Nat) : Option Nat :=
  match get_line_start s lower_bound current with
  | none => none
  | some line_start => get_column_loop current tabs (s.drop line_start) line_start 1

/-! ## Specification-side notions -/

/-- The unit at index `k` of `s` is a CR or an LF. -/
def newline_at (s : List Nat) (k : Nat) : Prop :=
  s[k]? = some CR ∨ s[k]? = some LF

instance (s : List Nat) (k : Nat) : Decidable (newline_at s k) := by
  unfold newline_at; infer_instance

/-- Number of logical line breaks of a sequence, split left to right: a CR
immediately followed by LF, or an LF immediately followed by CR, is one break, and
every other CR or LF is one break on its own. -/
def logical_breaks : List Nat → Nat
  | [] => 0
  | [c] => if c = CR ∨ c = LF then 1 else 0
  | c :: d :: rest =>
    if (c = CR ∧ d = LF) ∨ (c = LF ∧ d = CR) then 1 + logical_breaks rest
    else if c = CR ∨ c = LF then 1 + logical_breaks (d :: rest)
    else logical_breaks (d :: rest)

/-! ## Operations inherited from `boost::iterator_adaptor` -/

/-- Modelled from the spec: `operator*`, which `line_pos_iterator` inherits from
`boost::iterator_adaptor` (a header outside this repository): it "delegates to the
underlying cursor's dereference; no side effect on `line`".  The result is the unit
read together with the iterator as it is afterwards. -/
def line_pos_iterator.dereference (s : List Nat) (it : line_pos_iterator Nat) :
    Option (Nat × line_pos_iterator Nat) :=
  match s[it.base]? with
  | none => none
  | some c => some (c, it)

/-- Modelled from the spec: `operator==`, which `line_pos_iterator` inherits from
`boost::iterator_adaptor` (a header outside this repository): equality is "delegated
entirely to the underlying cursor". -/
def line_pos_iterator.equal {Iterator : Type} [DecidableEq Iterator]
    (a b : line_pos_iterator Iterator) : Bool :=
  decide (a.base = b.base)

/-! ## Further specification-side notions -/

/-- Number of units of a sequence at which the test of `increment()` fires, `prev`
being the unit read before the sequence. -/
def bumps (prev : Nat) : List Nat → Nat
  | [] => 0
  | c :: rest =>
    (if (prev ≠ LF ∧ c = CR) ∨ (prev ≠ CR ∧ c = LF) then 1 else 0) + bumps c rest

/-- A unit with CR and LF exchanged. -/
def swap_newline (c : Nat) : Nat :=
  if c = CR then LF else if c = LF then CR else c

/-- The column of `get_column` computed on natural numbers, without wrap-around:
from `column`, each tab goes to the next tab stop plus 1 and each other unit adds 1. -/
def exact_column (tabs : Nat) : Nat → List Nat → Nat
  | column, [] => column
  | column, c :: rest =>
    exact_column tabs
      (if c = TAB then column + (tabs - (column - 1) % tabs) else column + 1) rest

/-! ## Line start and line end -/

theorem newline_at_drop (s : List Nat) (i k : Nat) :
    newline_at (s.drop i) k ↔ newline_at s (i + k) := by
  unfold newline_at
  rw [List.getElem?_drop]

theorem newline_at_cons_zero (c : Nat) (rest : List Nat) :
    newline_at (c :: rest) 0 ↔ (c = CR ∨ c = LF) := by
  simp [newline_at]

theorem newline_at_cons_succ (c : Nat) (rest : List Nat) (k : Nat) :
    newline_at (c :: rest) (k + 1) ↔ newline_at rest k := by
  simp [newline_at]

theorem get_line_start_loop_spec (current : Nat) :
    ∀ (rest : List Nat) (i latest : Nat) (pnl : Bool),
      i ≤ current → current - i ≤ rest.length →
      ∃ r, get_line_start_loop current rest i latest pnl = some r ∧
        ((∃ j, j < current - i ∧ newline_at rest j ∧
            (∀ k, j < k → k < current - i → ¬ newline_at rest k) ∧ r = i + j + 1) ∨
         ((∀ k, k < current - i → ¬ newline_at rest k) ∧
            r = if pnl then i else latest)) := by
  intro rest
  induction rest with
  | nil =>
    intro i latest pnl hi hlen
    have hic : i = current := by simp at hlen; omega
    subst hic
    refine ⟨if pnl then i else latest, by simp [get_line_start_loop], Or.inr ⟨?_, rfl⟩⟩
    intro k hk; omega
  | cons c rest ih =>
    intro i latest pnl hi hlen
    by_cases hic : i = current
    · subst hic
      refine ⟨if pnl then i else latest, by simp [get_line_start_loop], Or.inr ⟨?_, rfl⟩⟩
      intro k hk; omega
    · have hlen1 : current - (i + 1) ≤ rest.length := by simp at hlen; omega
      obtain ⟨r, hr, hcase⟩ := ih (i + 1) (if pnl then i else latest) (c == CR || c == LF)
        (by omega) hlen1
      refine ⟨r, by simp [get_line_start_loop, hic]; simpa using hr, ?_⟩
      rcases hcase with ⟨j, hj, hnl, hafter, hrj⟩ | ⟨hnone, hrj⟩
      · refine Or.inl ⟨j + 1, by omega, (newline_at_cons_succ c rest j).2 hnl, ?_, by omega⟩
        intro k hjk hk
        obtain ⟨k1, rfl⟩ : ∃ k1, k = k1 + 1 := ⟨k - 1, by omega⟩
        rw [newline_at_cons_succ]
        exact hafter k1 (by omega) (by omega)
      · by_cases hc : c = CR ∨ c = LF
        · refine Or.inl ⟨0, by omega, (newline_at_cons_zero c rest).2 hc, ?_, ?_⟩
          · intro k hjk hk
            obtain ⟨k1, rfl⟩ : ∃ k1, k = k1 + 1 := ⟨k - 1, by omega⟩
            rw [newline_at_cons_succ]
            exact hnone k1 (by omega)
          · have : (c == CR || c == LF) = true := by
              rcases hc with h | h <;> simp [h]
            rw [hrj, this]; simp
        · refine Or.inr ⟨?_, ?_⟩
          · intro k hk
            cases k with
            | zero => rw [newline_at_cons_zero]; exact hc
            | succ k1 =>
              rw [newline_at_cons_succ]
              exact hnone k1 (by omega)
          · have : (c == CR || c == LF) = false := by
              simp only [not_or] at hc
              simp [hc.1, hc.2]
            rw [hrj, this]; simp

theorem get_line_end_loop_spec (upper : Nat) :
    ∀ (rest : List Nat) (i : Nat),
      i ≤ upper → upper - i ≤ rest.length →
      ∃ r, get_line_end_loop upper rest i = some r ∧
        ((∃ j, j < upper - i ∧ newline_at rest j ∧
            (∀ k, k < j → ¬ newline_at rest k) ∧ r = i + j) ∨
         ((∀ k, k < upper - i → ¬ newline_at rest k) ∧ r = upper)) := by
  intro rest
  induction rest with
  | nil =>
    intro i hi hlen
    have hiu : i = upper := by simp at hlen; omega
    subst hiu
    refine ⟨i, by simp [get_line_end_loop], Or.inr ⟨?_, rfl⟩⟩
    intro k hk; omega
  | cons c rest ih =>
    intro i hi hlen
    by_cases hiu : i = upper
    · subst hiu
      refine ⟨i, by simp [get_line_end_loop], Or.inr ⟨?_, rfl⟩⟩
      intro k hk; omega
    · by_cases hc : c = LF ∨ c = CR
      · refine ⟨i, by simp [get_line_end_loop, hiu, hc], Or.inl ⟨0, by omega, ?_, ?_, rfl⟩⟩
        · rw [newline_at_cons_zero]; tauto
        · intro k hk; omega
      · have hlen1 : upper - (i + 1) ≤ rest.length := by simp at hlen; omega
        obtain ⟨r, hr, hcase⟩ := ih (i + 1) (by omega) hlen1
        refine ⟨r, by simp [get_line_end_loop, hiu, hc]; exact hr, ?_⟩
        have hc0 : ¬ newline_at (c :: rest) 0 := by
          rw [newline_at_cons_zero]; tauto
        rcases hcase with ⟨j, hj, hnl, hbefore, hrj⟩ | ⟨hnone, hrj⟩
        · refine Or.inl ⟨j + 1, by omega, (newline_at_cons_succ c rest j).2 hnl, ?_, by omega⟩
          intro k hk
          cases k with
          | zero => exact hc0
          | succ k1 =>
            rw [newline_at_cons_succ]
            exact hbefore k1 (by omega)
        · refine Or.inr ⟨?_, hrj⟩
          intro k hk
          cases k with
          | zero => exact hc0
          | succ k1 =>
            rw [newline_at_cons_succ]
            exact hnone k1 (by omega)

theorem get_line_start_cases (s : List Nat) (lower current : Nat)
    (h1 : lower ≤ current) (h2 : current ≤ s.length) :
    ∃ r, get_line_start s lower current = some r ∧
      ((∃ j, lower ≤ j ∧ j < current ∧ newline_at s j ∧
          (∀ k, j < k → k < current → ¬ newline_at s k) ∧ r = j + 1) ∨
       ((∀ k, lower ≤ k → k < current → ¬ newline_at s k) ∧ r = lower)) := by
  obtain ⟨r, hr, hcase⟩ := get_line_start_loop_spec current (s.drop lower) lower lower false h1
    (by simp; omega)
  refine ⟨r, hr, ?_⟩
  rcases hcase with ⟨j, hj, hnl, hafter, hrj⟩ | ⟨hnone, hrj⟩
  · refine Or.inl ⟨lower + j, by omega, by omega, (newline_at_drop s lower j).1 hnl, ?_, by omega⟩
    intro k hjk hk
    have := hafter (k - lower) (by omega) (by omega)
    rw [newline_at_drop] at this
    rwa [show lower + (k - lower) = k by omega] at this
  · refine Or.inr ⟨?_, by simpa using hrj⟩
    intro k hlk hk
    have := hnone (k - lower) (by omega)
    rw [newline_at_drop] at this
    rwa [show lower + (k - lower) = k by omega] at this

theorem get_line_end_cases (s : List Nat) (current upper : Nat)
    (h1 : current ≤ upper) (h2 : upper ≤ s.length) :
    ∃ r, get_line_end s current upper = some r ∧
      ((∃ j, current ≤ j ∧ j < upper ∧ newline_at s j ∧
          (∀ k, current ≤ k → k < j → ¬ newline_at s k) ∧ r = j) ∨
       ((∀ k, current ≤ k → k < upper → ¬ newline_at s k) ∧ r = upper)) := by
  obtain ⟨r, hr, hcase⟩ := get_line_end_loop_spec upper (s.drop current) current h1
    (by simp; omega)
  refine ⟨r, hr, ?_⟩
  rcases hcase with ⟨j, hj, hnl, hbefore, hrj⟩ | ⟨hnone, hrj⟩
  · refine Or.inl ⟨current + j, by omega, by omega, (newline_at_drop s current j).1 hnl, ?_, hrj⟩
    intro k hck hk
    have := hbefore (k - current) (by omega)
    rw [newline_at_drop] at this
    rwa [show current + (k - current) = k by omega] at this
  · refine Or.inr ⟨?_, hrj⟩
    intro k hck hk
    have := hnone (k - current) (by omega)
    rw [newline_at_drop] at this
    rwa [show current + (k - current) = k by omega] at this

/-- Shape of the result of `get_line_start` used by the column and range results: it
lies in `[lower, current]`, nothing in `[r, current)` is a newline unit, and `r` is
`lower` or follows a newline unit. -/
theorem get_line_start_bounds (s : List Nat) (lower current : Nat)
    (h1 : lower ≤ current) (h2 : current ≤ s.length) :
    ∃ r, get_line_start s lower current = some r ∧ lower ≤ r ∧ r ≤ current ∧
      (∀ k, r ≤ k → k < current → ¬ newline_at s k) ∧
      (r = lower ∨ (lower < r ∧ newline_at s (r - 1))) := by
  obtain ⟨r, hr, hcase⟩ := get_line_start_cases s lower current h1 h2
  refine ⟨r, hr, ?_⟩
  rcases hcase with ⟨j, hlj, hjc, hnl, hafter, rfl⟩ | ⟨hnone, rfl⟩
  · refine ⟨by omega, by omega, fun k hk1 hk2 => hafter k (by omega) hk2, Or.inr ⟨by omega, ?_⟩⟩
    simpa using hnl
  · exact ⟨le_refl _, h1, hnone, Or.inl rfl⟩

theorem get_line_end_bounds (s : List Nat) (current upper : Nat)
    (h1 : current ≤ upper) (h2 : upper ≤ s.length) :
    ∃ r, get_line_end s current upper = some r ∧ current ≤ r ∧ r ≤ upper ∧
      (∀ k, current ≤ k → k < r → ¬ newline_at s k) ∧
      (r = upper ∨ (r < upper ∧ newline_at s r)) := by
  obtain ⟨r, hr, hcase⟩ := get_line_end_cases s current upper h1 h2
  refine ⟨r, hr, ?_⟩
  rcases hcase with ⟨j, hcj, hju, hnl, hbefore, rfl⟩ | ⟨hnone, rfl⟩
  · exact ⟨hcj, by omega, hbefore, Or.inr ⟨hju, hnl⟩⟩
  · exact ⟨h1, le_refl _, hnone, Or.inl rfl⟩

/-- C2 (amended). For `lower ≤ current ≤ upper ≤ |s|`, `get_current_line` returns a
range `[first, last)` with `lower ≤ first ≤ current ≤ last ≤ upper` that holds no CR
or LF unit and is maximal within the bounds (`first = lower` or `s[first-1]` is CR/LF,
`last = upper` or `s[last]` is CR/LF); it is the only such range, that is, the piece
around `current` obtained by splitting `s[lower..upper)` at every CR and LF, and
`current` lies inside it when `current < upper` and `s[current]` is not a CR or LF.
On `"abc\ndef\nghi"` with `current` at index 5 the range is `[4, 7)`. -/
theorem get_current_line_is_piece (s : List Nat) (lower current upper : Nat)
    (h1 : lower ≤ current) (h2 : current ≤ upper) (h3 : upper ≤ s.length) :
    (∃ first last, get_current_line s lower current upper = some (first, last) ∧
      lower ≤ first ∧ first ≤ current ∧ current ≤ last ∧ last ≤ upper ∧
      (∀ k, first ≤ k → k < last → ¬ newline_at s k) ∧
      (first = lower ∨ newline_at s (first - 1)) ∧
      (last = upper ∨ newline_at s last) ∧
      (current < upper → ¬ newline_at s current → current < last) ∧
      (∀ a b, lower ≤ a → a ≤ current → current ≤ b → b ≤ upper →
        (∀ k, a ≤ k → k < b → ¬ newline_at s k) →
        (a = lower ∨ newline_at s (a - 1)) → (b = upper ∨ newline_at s b) →
        a = first ∧ b = last)) ∧
    get_current_line [97, 98, 99, LF, 100, 101, 102, LF, 103, 104, 105] 0 5 11
      = some (4, 7) := by
  refine ⟨?_, by decide⟩
  obtain ⟨first, hf, hlf, hfc, hfno, hfmax⟩ :=
    get_line_start_bounds s lower current h1 (le_trans h2 h3)
  obtain ⟨last, hl, hcl, hlu, hlno, hlmax⟩ := get_line_end_bounds s current upper h2 h3
  have hno : ∀ k, first ≤ k → k < last → ¬ newline_at s k := by
    intro k hk1 hk2
    by_cases hkc : k < current
    · exact hfno k hk1 hkc
    · exact hlno k (by omega) hk2
  refine ⟨first, last, by simp [get_current_line, hf, hl], hlf, hfc, hcl, hlu, hno,
    ?_, ?_, ?_, ?_⟩
  · rcases hfmax with h | ⟨_, h⟩
    · exact Or.inl h
    · exact Or.inr h
  · rcases hlmax with h | ⟨_, h⟩
    · exact Or.inl h
    · exact Or.inr h
  · intro hcu hcur
    rcases hlmax with h | ⟨_, h⟩
    · omega
    · rcases Nat.lt_or_ge current last with hlt | hge
      · exact hlt
      · have : last = current := by omega
        rw [this] at h
        exact absurd h hcur
  · intro a b hla hac hcb hbu hab ha hb
    constructor
    · rcases Nat.lt_trichotomy a first with hlt | heq | hgt
      · rcases hfmax with h | ⟨_, h⟩
        · omega
        · exact absurd h (hab (first - 1) (by omega) (by omega))
      · exact heq
      · rcases ha with h | h
        · omega
        · exact absurd h (hno (a - 1) (by omega) (by omega))
    · rcases Nat.lt_trichotomy b last with hlt | heq | hgt
      · rcases hb with h | h
        · omega
        · exact absurd h (hno b (by omega) hlt)
      · exact heq
      · rcases hlmax with h | ⟨_, h⟩
        · omega
        · exact absurd h (hab last (by omega) hgt)

/-- Witness of C2 on `"ab\ncd"` with `lower = 0`, `current = 4`, `upper = 5`. -/
theorem get_current_line_is_piece_witness :
    (0 ≤ 4 ∧ 4 ≤ 5 ∧ 5 ≤ [97, 98, LF, 99, 100].length) ∧
    get_current_line [97, 98, LF, 99, 100] 0 4 5 = some (3, 5) ∧
    (∃ first last, get_current_line [97, 98, LF, 99, 100] 0 4 5 = some (first, last) ∧
      0 ≤ first ∧ first ≤ 4 ∧ 4 ≤ last ∧ last ≤ 5 ∧
      (∀ k, first ≤ k → k < last → ¬ newline_at [97, 98, LF, 99, 100] k) ∧
      (first = 0 ∨ newline_at [97, 98, LF, 99, 100] (first - 1)) ∧
      (last = 5 ∨ newline_at [97, 98, LF, 99, 100] last) ∧
      (4 < 5 → ¬ newline_at [97, 98, LF, 99, 100] 4 → 4 < last) ∧
      (∀ a b, 0 ≤ a → a ≤ 4 → 4 ≤ b → b ≤ 5 →
        (∀ k, a ≤ k → k < b → ¬ newline_at [97, 98, LF, 99, 100] k) →
        (a = 0 ∨ newline_at [97, 98, LF, 99, 100] (a - 1)) →
        (b = 5 ∨ newline_at [97, 98, LF, 99, 100] b) →
        a = first ∧ b = last)) :=
  ⟨by decide, by decide,
    (get_current_line_is_piece [97, 98, LF, 99, 100] 0 4 5 (by decide) (by decide)
      (by decide)).1⟩

/-- C3. For `lower ≤ current ≤ |s|`, `get_line_start(lower, current)` returns `j + 1`
for the greatest index `j` of `[lower, current)` whose unit is a CR or an LF (each
counting on its own), and `lower` itself when no index of `[lower, current)` holds a
CR or LF. -/
theorem get_line_start_after_last_newline (s : List Nat) (lower current : Nat)
    (h1 : lower ≤ current) (h2 : current ≤ s.length) :
    ∃ r, get_line_start s lower current = some r ∧
      (∀ j, lower ≤ j → j < current → newline_at s j →
        (∀ k, j < k → k < current → ¬ newline_at s k) → r = j + 1) ∧
      ((∀ k, lower ≤ k → k < current → ¬ newline_at s k) → r = lower) ∧
      ((∃ j, lower ≤ j ∧ j < current ∧ newline_at s j ∧
          (∀ k, j < k → k < current → ¬ newline_at s k) ∧ r = j + 1) ∨
       ((∀ k, lower ≤ k → k < current → ¬ newline_at s k) ∧ r = lower)) := by
  obtain ⟨r, hr, hcase⟩ := get_line_start_cases s lower current h1 h2
  refine ⟨r, hr, ?_, ?_, hcase⟩
  · intro j hlj hjc hnl hafter
    rcases hcase with ⟨j1, hlj1, hjc1, hnl1, hafter1, rfl⟩ | ⟨hnone, rfl⟩
    · rcases Nat.lt_trichotomy j j1 with hlt | heq | hgt
      · exact absurd hnl1 (hafter j1 hlt hjc1)
      · omega
      · exact absurd hnl (hafter1 j hgt hjc)
    · exact absurd hnl (hnone j hlj hjc)
  · intro hnone
    rcases hcase with ⟨j1, hlj1, hjc1, hnl1, hafter1, rfl⟩ | ⟨_, rfl⟩
    · exact absurd hnl1 (hnone j1 hlj1 hjc1)
    · rfl

/-- Witness of C3 on `"a\n\rb"` between `0` and `4`: the last newline unit is the CR
at index 2, and the line starts at 3. -/
theorem get_line_start_after_last_newline_witness :
    (0 ≤ 4 ∧ 4 ≤ [97, LF, CR, 98].length) ∧
    get_line_start [97, LF, CR, 98] 0 4 = some 3 ∧
    (∃ r, get_line_start [97, LF, CR, 98] 0 4 = some r ∧
      (∀ j, 0 ≤ j → j < 4 → newline_at [97, LF, CR, 98] j →
        (∀ k, j < k → k < 4 → ¬ newline_at [97, LF, CR, 98] k) → r = j + 1) ∧
      ((∀ k, 0 ≤ k → k < 4 → ¬ newline_at [97, LF, CR, 98] k) → r = 0) ∧
      ((∃ j, 0 ≤ j ∧ j < 4 ∧ newline_at [97, LF, CR, 98] j ∧
          (∀ k, j < k → k < 4 → ¬ newline_at [97, LF, CR, 98] k) ∧ r = j + 1) ∨
       ((∀ k, 0 ≤ k → k < 4 → ¬ newline_at [97, LF, CR, 98] k) ∧ r = 0))) :=
  ⟨by decide, by decide,
    get_line_start_after_last_newline [97, LF, CR, 98] 0 4 (by decide) (by decide)⟩

/-- C8. For `current ≤ upper ≤ |s|`, `get_line_end(current, upper)` returns the least
index of `[current, upper)` whose unit is a CR or an LF, and `upper` when there is
none. -/
theorem get_line_end_first_newline (s : List Nat) (current upper : Nat)
    (h1 : current ≤ upper) (h2 : upper ≤ s.length) :
    ∃ r, get_line_end s current upper = some r ∧
      (∀ j, current ≤ j → j < upper → newline_at s j →
        (∀ k, current ≤ k → k < j → ¬ newline_at s k) → r = j) ∧
      ((∀ k, current ≤ k → k < upper → ¬ newline_at s k) → r = upper) ∧
      ((∃ j, current ≤ j ∧ j < upper ∧ newline_at s j ∧
          (∀ k, current ≤ k → k < j → ¬ newline_at s k) ∧ r = j) ∨
       ((∀ k, current ≤ k → k < upper → ¬ newline_at s k) ∧ r = upper)) := by
  obtain ⟨r, hr, hcase⟩ := get_line_end_cases s current upper h1 h2
  refine ⟨r, hr, ?_, ?_, hcase⟩
  · intro j hcj hju hnl hbefore
    rcases hcase with ⟨j1, hcj1, hju1, hnl1, hbefore1, hrj⟩ | ⟨hnone, _⟩
    · rcases Nat.lt_trichotomy j j1 with hlt | heq | hgt
      · exact absurd hnl (hbefore1 j hcj hlt)
      · omega
      · exact absurd hnl1 (hbefore j1 hcj1 hgt)
    · exact absurd hnl (hnone j hcj hju)
  · intro hnone
    rcases hcase with ⟨j1, hcj1, hju1, hnl1, _, _⟩ | ⟨_, hru⟩
    · exact absurd hnl1 (hnone j1 hcj1 hju1)
    · exact hru

/-- Witness of C8 on `"ab\r\ncd"` between `0` and `6`: the first newline unit is the
CR at index 2. -/
theorem get_line_end_first_newline_witness :
    (0 ≤ 6 ∧ 6 ≤ [97, 98, CR, LF, 99, 100].length) ∧
    get_line_end [97, 98, CR, LF, 99, 100] 0 6 = some 2 ∧
    (∃ r, get_line_end [97, 98, CR, LF, 99, 100] 0 6 = some r ∧
      (∀ j, 0 ≤ j → j < 6 → newline_at [97, 98, CR, LF, 99, 100] j →
        (∀ k, 0 ≤ k → k < j → ¬ newline_at [97, 98, CR, LF, 99, 100] k) → r = j) ∧
      ((∀ k, 0 ≤ k → k < 6 → ¬ newline_at [97, 98, CR, LF, 99, 100] k) → r = 6) ∧
      ((∃ j, 0 ≤ j ∧ j < 6 ∧ newline_at [97, 98, CR, LF, 99, 100] j ∧
          (∀ k, 0 ≤ k → k < j → ¬ newline_at [97, 98, CR, LF, 99, 100] k) ∧ r = j) ∨
       ((∀ k, 0 ≤ k → k < 6 → ¬ newline_at [97, 98, CR, LF, 99, 100] k) ∧ r = 6))) :=
  ⟨by decide, by decide,
    get_line_end_first_newline [97, 98, CR, LF, 99, 100] 0 6 (by decide) (by decide)⟩

/-- C10. `get_line` of a plain (non-tracking) cursor is the "unknown" value, `-1`
converted to `std::size_t`, that is `2 ^ 64 - 1`, whatever the cursor; `get_line` of a
`line_pos_iterator` is its `position()`. -/
theorem get_line_plain_and_tracking {Iterator : Type} :
    (∀ i : Iterator, get_line (get_line_arg.plain i) = 2 ^ 64 - 1) ∧
    (∀ i : Iterator, get_line (get_line_arg.plain i) = to_size_t (-1)) ∧
    (∀ it : line_pos_iterator Iterator,
      get_line (get_line_arg.tracking it) = it.position) := by
  refine ⟨fun i => ?_, fun i => rfl, fun it => rfl⟩
  show to_size_t (-1) = 2 ^ 64 - 1
  decide

theorem advance_add (s : List Nat) :
    ∀ (m n : Nat) (it : line_pos_iterator Nat),
      advance s (m + n) it = (advance s m it).bind (advance s n) := by
  intro m
  induction m with
  | zero => intro n it; simp [advance]
  | succ m ih =>
    intro n it
    rw [show m + 1 + n = (m + n) + 1 by omega]
    simp only [advance]
    cases h : it.increment s with
    | none => simp
    | some it1 => simp [ih]

theorem increment_some (s : List Nat) (it : line_pos_iterator Nat) (ref : Nat)
    (h : s[it.base]? = some ref) :
    it.increment s = some
      { base := it.base + 1
        line := if (it.prev ≠ LF ∧ ref = CR) ∨ (it.prev ≠ CR ∧ ref = LF)
                then size_add it.line 1 else it.line
        prev := ref } := by
  simp [line_pos_iterator.increment, h]

/-- A run of `k` equal newline units `u` (with `o` the other newline unit), entered
with `prev ≠ o`, bumps the line counter `k` times. -/
theorem advance_same_unit (s : List Nat) (u o : Nat)
    (huo : (u = LF ∧ o = CR) ∨ (u = CR ∧ o = LF)) :
    ∀ (k : Nat) (it : line_pos_iterator Nat),
      it.line < SIZE_RANGE → it.prev ≠ o →
      (∀ i, i < k → s[it.base + i]? = some u) →
      advance s k it = some
        { base := it.base + k
          line := (it.line + k) % SIZE_RANGE
          prev := if k = 0 then it.prev else u } := by
  intro k
  induction k with
  | zero =>
    intro it hline _ _
    simp [advance, Nat.mod_eq_of_lt hline]
  | succ k ih =>
    intro it hline hprev hrun
    have h0 : s[it.base]? = some u := by simpa using hrun 0 (by omega)
    have hcond : (it.prev ≠ LF ∧ u = CR) ∨ (it.prev ≠ CR ∧ u = LF) := by
      rcases huo with ⟨hu, ho⟩ | ⟨hu, ho⟩
      · exact Or.inr ⟨by rw [← ho]; exact hprev, hu⟩
      · exact Or.inl ⟨by rw [← ho]; exact hprev, hu⟩
    have huo_ne : u ≠ o := by
      rcases huo with ⟨hu, ho⟩ | ⟨hu, ho⟩ <;> rw [hu, ho] <;> decide
    simp only [advance, increment_some s it u h0, if_pos hcond]
    rw [ih _ (by simp [size_add]; exact Nat.mod_lt _ (by norm_num)) huo_ne
      (by intro i hi; simpa [Nat.add_assoc, Nat.add_comm 1 i] using hrun (i + 1) (by omega))]
    simp only [size_add, SIZE_RANGE]
    congr 2
    · omega
    · omega
    · simp

theorem getElem?_of_all_eq (s : List Nat) (u : Nat) (hs : ∀ c ∈ s, c = u) (i : Nat)
    (hi : i < s.length) : s[i]? = some u := by
  rw [List.getElem?_eq_getElem hi]
  exact congrArg some (hs _ (List.getElem_mem hi))

/-- Advancing a fresh iterator over `k` units of a sequence made of one newline unit
`u` only. -/
theorem advance_fresh_same_unit (s : List Nat) (u o : Nat)
    (huo : (u = LF ∧ o = CR) ∨ (u = CR ∧ o = LF)) (k : Nat)
    (hs : ∀ c ∈ s, c = u) (hk : k ≤ s.length) :
    advance s k (line_pos_iterator.ctor 0) = some
      { base := k, line := (1 + k) % SIZE_RANGE, prev := if k = 0 then 0 else u } := by
  have h := advance_same_unit s u o huo k (line_pos_iterator.ctor 0)
    (by simp [line_pos_iterator.ctor])
    (by rcases huo with ⟨_, ho⟩ | ⟨_, ho⟩ <;> rw [ho] <;> simp [line_pos_iterator.ctor])
    (by intro i hi
        simpa [line_pos_iterator.ctor] using getElem?_of_all_eq s u hs i (by omega))
  simpa [line_pos_iterator.ctor] using h

/-- C1 (evaluation at the failing input). On `"\r\n\r\n"`, two consecutive CRLF
pairs, four advances of a fresh iterator leave `position()` at 2, while one plus the
number of logical line breaks of the prefix is 3; likewise on `"a\r\n\r\nb"`, a CRLF
text with an empty second line, the iterator that has reached `'b'` reports line 2
where the prefix holds two line breaks. -/
theorem position_two_crlf_pairs :
    ((advance [CR, LF, CR, LF] 4 (line_pos_iterator.ctor 0)).map line_pos_iterator.position
      = some 2 ∧
     1 + logical_breaks ([CR, LF, CR, LF].take 4) = 3) ∧
    ((advance [97, CR, LF, CR, LF, 98] 5 (line_pos_iterator.ctor 0)).map
        line_pos_iterator.position = some 2 ∧
     1 + logical_breaks ([97, CR, LF, CR, LF, 98].take 5) = 3) := by
  decide

theorem advance_one (s : List Nat) (it : line_pos_iterator Nat) :
    advance s 1 it = it.increment s := by
  show (match it.increment s with
    | none => none
    | some it1 => advance s 0 it1) = it.increment s
  cases it.increment s <;> rfl

theorem advance_total (s : List Nat) :
    ∀ (n : Nat) (it0 : line_pos_iterator Nat), it0.base + n ≤ s.length →
      ∃ it, advance s n it0 = some it := by
  intro n
  induction n with
  | zero => intro it0 _; exact ⟨it0, rfl⟩
  | succ n ih =>
    intro it0 hlen
    have hlt : it0.base < s.length := by omega
    obtain ⟨it, hit⟩ := ih
      { base := it0.base + 1
        line := if (it0.prev ≠ LF ∧ s[it0.base] = CR) ∨ (it0.prev ≠ CR ∧ s[it0.base] = LF)
                then size_add it0.line 1 else it0.line
        prev := s[it0.base] } (by simp only []; omega)
    refine ⟨it, ?_⟩
    simp only [advance, increment_some s it0 s[it0.base] (List.getElem?_eq_getElem hlt)]
    exact hit

/-- Where `n` advances lead: the base has moved by `n`, the line counter is still a
`size_t` value, and `prev` is the last unit passed. -/
theorem advance_reaches (s : List Nat) :
    ∀ (n : Nat) (it0 it : line_pos_iterator Nat), advance s n it0 = some it →
      it.base = it0.base + n ∧ (it0.line < SIZE_RANGE → it.line < SIZE_RANGE) ∧
      (0 < n → s[it0.base + n - 1]? = some it.prev) ∧ (n = 0 → it = it0) := by
  intro n
  induction n with
  | zero =>
    intro it0 it h
    simp only [advance, Option.some.injEq] at h
    subst h
    exact ⟨rfl, id, fun h => absurd h (by omega), fun _ => rfl⟩
  | succ n ih =>
    intro it0 it h
    simp only [advance] at h
    cases hs : s[it0.base]? with
    | none => simp [line_pos_iterator.increment, hs] at h
    | some ref =>
      rw [increment_some s it0 ref hs] at h
      obtain ⟨hb, hl, hp, hz⟩ := ih _ it h
      refine ⟨by simp only [] at hb; omega, ?_, ?_, fun h0 => absurd h0 (by omega)⟩
      · intro hline
        apply hl
        simp only []
        split
        · exact Nat.mod_lt _ (by norm_num)
        · exact hline
      · intro _
        rcases Nat.eq_zero_or_pos n with hn | hn
        · subst hn
          have := hz rfl
          subst this
          simpa using hs
        · have := hp hn
          simp only [] at this
          rw [show it0.base + (n + 1) - 1 = it0.base + 1 + n - 1 by omega]
          exact this

/-- Two advances across a pair `u o` of opposite newline units, entered with
`prev ≠ o`: the first unit bumps the line counter, the second does not. -/
theorem advance_pair (s : List Nat) (u o : Nat)
    (huo : (u = LF ∧ o = CR) ∨ (u = CR ∧ o = LF)) (it : line_pos_iterator Nat)
    (hprev : it.prev ≠ o) (h0 : s[it.base]? = some u) (h1 : s[it.base + 1]? = some o) :
    advance s 2 it = some
      { base := it.base + 2, line := size_add it.line 1, prev := o } := by
  have hcond : (it.prev ≠ LF ∧ u = CR) ∨ (it.prev ≠ CR ∧ u = LF) := by
    rcases huo with ⟨hu, ho⟩ | ⟨hu, ho⟩
    · exact Or.inr ⟨by rw [← ho]; exact hprev, hu⟩
    · exact Or.inl ⟨by rw [← ho]; exact hprev, hu⟩
  have hcond2 : ¬ ((u ≠ LF ∧ o = CR) ∨ (u ≠ CR ∧ o = LF)) := by
    rcases huo with ⟨hu, ho⟩ | ⟨hu, ho⟩ <;> rw [hu, ho] <;> decide
  simp only [advance, increment_some s it u h0, if_pos hcond]
  rw [increment_some s _ o (by simpa using h1)]
  simp only [if_neg hcond2]

theorem get_column_loop_self (tabs : Nat) (rest : List Nat) (i column : Nat) :
    get_column_loop i tabs rest i column = some column := by
  cases rest <;> simp [get_column_loop]

theorem size_add_lt (a b : Nat) : size_add a b < SIZE_RANGE :=
  Nat.mod_lt _ (by norm_num)

/-- One more unit of the line: the loop of `get_column` run up to `current + 1` is the
loop run up to `current` followed by the loop body at the unit under `current`. -/
theorem get_column_loop_succ (tabs : Nat) (ht : tabs ≠ 0) (current : Nat) :
    ∀ (rest : List Nat) (i column : Nat), i ≤ current → current - i < rest.length →
      column < SIZE_RANGE →
      ∃ col0 c, get_column_loop current tabs rest i column = some col0 ∧
        col0 < SIZE_RANGE ∧ rest[current - i]? = some c ∧
        get_column_loop (current + 1) tabs rest i column = some
          (if c = TAB then size_add col0 (size_sub tabs (size_sub col0 1 % tabs))
           else size_add col0 1) := by
  intro rest
  induction rest with
  | nil => intro i column _ hlen _; simp at hlen
  | cons c0 rest ih =>
    intro i column hi hlen hcol
    by_cases hic : i = current
    · subst hic
      refine ⟨column, c0, get_column_loop_self _ _ _ _, hcol, by simp, ?_⟩
      by_cases hc : c0 = TAB
      · simp [get_column_loop, hc, ht, get_column_loop_self]
      · simp [get_column_loop, hc, get_column_loop_self]
    · have hi1 : i + 1 ≤ current := by omega
      have hlen1 : current - (i + 1) < rest.length := by simp at hlen; omega
      have hidx : ∀ l : List Nat, (c0 :: l)[current - i]? = l[current - (i + 1)]? := by
        intro l
        rw [show current - i = (current - (i + 1)) + 1 by omega]
        simp
      have hic1 : i ≠ current + 1 := by omega
      by_cases hc : c0 = TAB
      · obtain ⟨col0, c, h1, h2, h3, h4⟩ := ih (i + 1)
          (size_add column (size_sub tabs (size_sub column 1 % tabs))) hi1 hlen1
          (size_add_lt _ _)
        refine ⟨col0, c, ?_, h2, by rw [hidx]; exact h3, ?_⟩
        · simp only [get_column_loop, if_neg hic, if_pos hc, if_neg ht]; exact h1
        · simp only [get_column_loop, if_neg hic1, if_pos hc, if_neg ht]; exact h4
      · obtain ⟨col0, c, h1, h2, h3, h4⟩ := ih (i + 1) (size_add column 1) hi1 hlen1
          (size_add_lt _ _)
        refine ⟨col0, c, ?_, h2, by rw [hidx]; exact h3, ?_⟩
        · simp only [get_column_loop, if_neg hic, if_neg hc]; exact h1
        · simp only [get_column_loop, if_neg hic1, if_neg hc]; exact h4

/-- With `tabs = 1` the loop of `get_column` adds one per unit. -/
theorem get_column_loop_tabs_one (current : Nat) :
    ∀ (rest : List Nat) (i column : Nat), i ≤ current → current - i ≤ rest.length →
      column < SIZE_RANGE →
      get_column_loop current 1 rest i column
        = some ((column + (current - i)) % SIZE_RANGE) := by
  intro rest
  induction rest with
  | nil =>
    intro i column hi hlen hcol
    have hic : i = current := by simp at hlen; omega
    subst hic
    simp [get_column_loop, Nat.mod_eq_of_lt hcol]
  | cons c0 rest ih =>
    intro i column hi hlen hcol
    by_cases hic : i = current
    · subst hic
      simp [get_column_loop, Nat.mod_eq_of_lt hcol]
    · have hi1 : i + 1 ≤ current := by omega
      have hlen1 : current - (i + 1) ≤ rest.length := by simp at hlen; omega
      have hstep : size_add column (size_sub 1 (size_sub column 1 % 1)) = size_add column 1 := by
        simp [size_sub, Nat.mod_one]
      have hres : (size_add column 1 + (current - (i + 1))) % SIZE_RANGE
          = (column + (current - i)) % SIZE_RANGE := by
        simp only [size_add, SIZE_RANGE]
        omega
      by_cases hc : c0 = TAB
      · simp only [get_column_loop, if_neg hic, if_pos hc, hstep]
        rw [if_neg (by decide), ih (i + 1) _ hi1 hlen1 (size_add_lt _ _), hres]
      · simp only [get_column_loop, if_neg hic, if_neg hc]
        rw [ih (i + 1) _ hi1 hlen1 (size_add_lt _ _), hres]

theorem get_column_tabs_one (s : List Nat) (lower current : Nat)
    (h1 : lower ≤ current) (h2 : current ≤ s.length) :
    ∃ line_start, get_line_start s lower current = some line_start ∧
      line_start ≤ current ∧
      get_column s lower current 1 = some ((1 + (current - line_start)) % SIZE_RANGE) := by
  obtain ⟨r, hr, hlr, hrc, _, _⟩ := get_line_start_bounds s lower current h1 h2
  refine ⟨r, hr, hrc, ?_⟩
  simp only [get_column, hr]
  exact get_column_loop_tabs_one current (s.drop r) r 1 hrc (by simp; omega) (by norm_num)

/-- A unit that is not a newline does not move the line start. -/
theorem get_line_start_step (s : List Nat) (lower current : Nat)
    (h1 : lower ≤ current) (h2 : current < s.length) (hc : ¬ newline_at s current) :
    get_line_start s lower (current + 1) = get_line_start s lower current := by
  obtain ⟨r, hr, hlr, hrc, hno, hmax⟩ :=
    get_line_start_bounds s lower current h1 (by omega)
  obtain ⟨r1, hr1, hlr1, hrc1, hno1, hmax1⟩ :=
    get_line_start_bounds s lower (current + 1) (by omega) (by omega)
  rw [hr, hr1]
  congr 1
  rcases Nat.lt_trichotomy r1 r with hlt | heq | hgt
  · rcases hmax with h | ⟨_, h⟩
    · omega
    · exact absurd h (hno1 (r - 1) (by omega) (by omega))
  · exact heq
  · rcases hmax1 with h | ⟨_, h⟩
    · omega
    · rcases Nat.lt_or_ge (r1 - 1) current with hlt1 | hge1
      · exact absurd h (hno (r1 - 1) (by omega) hlt1)
      · have : r1 - 1 = current := by omega
        rw [this] at h
        exact absurd h hc

/-- The column after a unit of the line is the loop body applied to the column
before it. -/
theorem get_column_succ (s : List Nat) (lower current tabs c : Nat) (ht : tabs ≠ 0)
    (h1 : lower ≤ current) (hc : s[current]? = some c) (hnl : c ≠ CR ∧ c ≠ LF) :
    ∃ col0, get_column s lower current tabs = some col0 ∧ col0 < SIZE_RANGE ∧
      get_column s lower (current + 1) tabs = some
        (if c = TAB then size_add col0 (size_sub tabs (size_sub col0 1 % tabs))
         else size_add col0 1) := by
  have h2 : current < s.length := (List.getElem?_eq_some.1 hc).1
  have hnot : ¬ newline_at s current := by
    unfold newline_at
    rw [hc]
    simp only [Option.some.injEq]
    tauto
  obtain ⟨r, hr, hlr, hrc, _, _⟩ := get_line_start_bounds s lower current h1 (by omega)
  have hr1 : get_line_start s lower (current + 1) = some r := by
    rw [get_line_start_step s lower current h1 h2 hnot, hr]
  obtain ⟨col0, c1, e1, e2, e3, e4⟩ := get_column_loop_succ tabs ht current (s.drop r) r 1
    hrc (by simp; omega) (by norm_num)
  have hcc : c1 = c := by
    rw [List.getElem?_drop, show r + (current - r) = current by omega, hc] at e3
    simpa using e3.symm
  subst hcc
  exact ⟨col0, by simp only [get_column, hr]; exact e1, e2,
    by simp only [get_column, hr1]; exact e4⟩

/-- The tab rule `column += tabs - (column - 1) % tabs` without wrap-around, and the
tab stop it reaches. -/
theorem tab_stop_arith (col0 tabs : Nat) (h0 : 1 ≤ col0) (ht : 1 ≤ tabs)
    (hfit : col0 + (tabs - (col0 - 1) % tabs) < 2 ^ 64) :
    size_add col0 (size_sub tabs (size_sub col0 1 % tabs))
      = col0 + (tabs - (col0 - 1) % tabs) ∧
    col0 < col0 + (tabs - (col0 - 1) % tabs) ∧
    (col0 + (tabs - (col0 - 1) % tabs) - 1) % tabs = 0 ∧
    ∀ c, col0 < c → (c - 1) % tabs = 0 → col0 + (tabs - (col0 - 1) % tabs) ≤ c := by
  have hx : (col0 - 1) % tabs < tabs := Nat.mod_lt _ (by omega)
  have hdm : tabs * ((col0 - 1) / tabs) + (col0 - 1) % tabs = col0 - 1 :=
    Nat.div_add_mod (col0 - 1) tabs
  have hsub1 : size_sub col0 1 = col0 - 1 := by
    simp only [size_sub, SIZE_RANGE]
    omega
  have hsub2 : size_sub tabs ((col0 - 1) % tabs) = tabs - (col0 - 1) % tabs := by
    simp only [size_sub, SIZE_RANGE]
    generalize (col0 - 1) % tabs = x at hx hfit
    omega
  have hstop : col0 + (tabs - (col0 - 1) % tabs) - 1 = tabs * ((col0 - 1) / tabs + 1) := by
    rw [Nat.mul_add, Nat.mul_one]
    generalize (col0 - 1) % tabs = x at hx hdm
    generalize tabs * ((col0 - 1) / tabs) = y at hdm
    omega
  refine ⟨?_, by omega, ?_, ?_⟩
  · rw [hsub1, hsub2]
    simp only [size_add, SIZE_RANGE]
    exact Nat.mod_eq_of_lt hfit
  · rw [hstop]; exact Nat.mul_mod_right _ _
  · intro c hc hmod
    by_contra hlt
    have hcm : tabs * ((c - 1) / tabs) = c - 1 := by
      have := Nat.div_add_mod (c - 1) tabs
      rw [hmod] at this
      simpa using this
    have hlt2 : tabs * ((c - 1) / tabs) < tabs * ((col0 - 1) / tabs + 1) := by
      rw [hcm, ← hstop]; omega
    have hm : (c - 1) / tabs ≤ (col0 - 1) / tabs :=
      Nat.lt_succ_iff.1 (Nat.lt_of_mul_lt_mul_left hlt2)
    have hle : tabs * ((c - 1) / tabs) ≤ tabs * ((col0 - 1) / tabs) :=
      Nat.mul_le_mul_left _ hm
    rw [hcm] at hle
    omega

/-- C4 (amended). For `tabs ≥ 1` and a position `current` whose line prefix ends in
the unit `c = s[current - 1]` (not a CR or LF), with `col0` the column before that
unit: if `c` is a tab, `col0 ≥ 1` and the next tab stop plus 1,
`col0 + (tabs - (col0 - 1) mod tabs)`, is below `2 ^ 64`, then
`get_column(lower, current, tabs)` is the smallest column greater than `col0` with
`(column - 1) mod tabs = 0`; if `c` is not a tab and `col0 + 1 < 2 ^ 64`, it is
`col0 + 1`.  On `"ab\tc"` with `tabs = 4`, `get_column` at index 3 is 5. -/
theorem get_column_next_tab_stop (s : List Nat) (lower current tabs c : Nat)
    (ht : 1 ≤ tabs) (h1 : lower < current)
    (hc : s[current - 1]? = some c) (hnl : c ≠ CR ∧ c ≠ LF) :
    (∃ col0 column, get_column s lower (current - 1) tabs = some col0 ∧
      get_column s lower current tabs = some column ∧
      (c = TAB → 1 ≤ col0 → col0 + (tabs - (col0 - 1) % tabs) < 2 ^ 64 →
        col0 < column ∧ (column - 1) % tabs = 0 ∧
        (∀ c1, col0 < c1 → (c1 - 1) % tabs = 0 → column ≤ c1) ∧
        column = col0 + (tabs - (col0 - 1) % tabs)) ∧
      (c ≠ TAB → col0 + 1 < 2 ^ 64 → column = col0 + 1)) ∧
    get_column [97, 98, TAB, 99] 0 3 4 = some 5 := by
  refine ⟨?_, by decide⟩
  obtain ⟨col0, e1, e2, e3⟩ :=
    get_column_succ s lower (current - 1) tabs c (by omega) (by omega) hc hnl
  rw [show current - 1 + 1 = current by omega] at e3
  refine ⟨col0, _, e1, e3, ?_, ?_⟩
  · intro htab h0 hfit
    obtain ⟨a1, a2, a3, a4⟩ := tab_stop_arith col0 tabs h0 ht hfit
    rw [if_pos htab, a1]
    exact ⟨a2, a3, a4, rfl⟩
  · intro hntab hfit
    rw [if_neg hntab]
    simp only [size_add, SIZE_RANGE]
    exact Nat.mod_eq_of_lt hfit

/-- Witness of C4 on `"x\na\t"` with `tabs = 8`, at the end: the column before the
tab is 2 and the column after it is 9. -/
theorem get_column_next_tab_stop_witness :
    (1 ≤ 8 ∧ 0 < 4 ∧ [120, LF, 97, TAB][4 - 1]? = some TAB ∧ (TAB ≠ CR ∧ TAB ≠ LF)) ∧
    get_column [120, LF, 97, TAB] 0 (4 - 1) 8 = some 2 ∧
    get_column [120, LF, 97, TAB] 0 4 8 = some 9 ∧
    (∃ col0 column, get_column [120, LF, 97, TAB] 0 (4 - 1) 8 = some col0 ∧
      get_column [120, LF, 97, TAB] 0 4 8 = some column ∧
      (TAB = TAB → 1 ≤ col0 → col0 + (8 - (col0 - 1) % 8) < 2 ^ 64 →
        col0 < column ∧ (column - 1) % 8 = 0 ∧
        (∀ c1, col0 < c1 → (c1 - 1) % 8 = 0 → column ≤ c1) ∧
        column = col0 + (8 - (col0 - 1) % 8)) ∧
      (TAB ≠ TAB → col0 + 1 < 2 ^ 64 → column = col0 + 1)) :=
  ⟨by decide, by decide, by decide,
    (get_column_next_tab_stop [120, LF, 97, TAB] 0 4 8 TAB (by decide) (by decide)
      (by decide) (by decide)).1⟩

/-- C4 (counterexample). On `"\t"` with `tabs = 2 ^ 64 - 1`, the column before the tab
is 1 and `get_column` after it is 0: not a column greater than 1. -/
theorem get_column_next_tab_stop_counterexample :
    1 ≤ 2 ^ 64 - 1 ∧ [TAB][1 - 1]? = some TAB ∧
    get_column [TAB] 0 (1 - 1) (2 ^ 64 - 1) = some 1 ∧
    get_column [TAB] 0 1 (2 ^ 64 - 1) = some 0 ∧
    ¬ (1 < 0) := by
  decide

/-! ## Totality and locality of the utilities -/

theorem get_line_start_loop_congr (current : Nat) :
    ∀ (rest rest1 : List Nat) (i latest : Nat) (pnl : Bool), i ≤ current →
      (∀ k, k < current - i → rest[k]? = rest1[k]?) →
      get_line_start_loop current rest i latest pnl
        = get_line_start_loop current rest1 i latest pnl := by
  intro rest
  induction rest with
  | nil =>
    intro rest1 i latest pnl hi hag
    cases rest1 with
    | nil => rfl
    | cons c1 r1 =>
      by_cases hic : i = current
      · simp [get_line_start_loop, hic]
      · have := hag 0 (by omega)
        simp at this
  | cons c r ih =>
    intro rest1 i latest pnl hi hag
    cases rest1 with
    | nil =>
      by_cases hic : i = current
      · simp [get_line_start_loop, hic]
      · have := hag 0 (by omega)
        simp at this
    | cons c1 r1 =>
      by_cases hic : i = current
      · simp [get_line_start_loop, hic]
      · have hc : c = c1 := by simpa using hag 0 (by omega)
        subst hc
        simp only [get_line_start_loop, if_neg hic]
        apply ih r1 (i + 1) _ _ (by omega)
        intro k hk
        simpa using hag (k + 1) (by omega)

theorem get_line_end_loop_congr (upper : Nat) :
    ∀ (rest rest1 : List Nat) (i : Nat), i ≤ upper →
      (∀ k, k < upper - i → rest[k]? = rest1[k]?) →
      get_line_end_loop upper rest i = get_line_end_loop upper rest1 i := by
  intro rest
  induction rest with
  | nil =>
    intro rest1 i hi hag
    cases rest1 with
    | nil => rfl
    | cons c1 r1 =>
      by_cases hic : i = upper
      · simp [get_line_end_loop, hic]
      · have := hag 0 (by omega)
        simp at this
  | cons c r ih =>
    intro rest1 i hi hag
    cases rest1 with
    | nil =>
      by_cases hic : i = upper
      · simp [get_line_end_loop, hic]
      · have := hag 0 (by omega)
        simp at this
    | cons c1 r1 =>
      by_cases hic : i = upper
      · simp [get_line_end_loop, hic]
      · have hc : c = c1 := by simpa using hag 0 (by omega)
        subst hc
        simp only [get_line_end_loop, if_neg hic]
        rw [ih r1 (i + 1) (by omega) (by
          intro k hk
          simpa using hag (k + 1) (by omega))]

theorem get_column_loop_congr (current tabs : Nat) :
    ∀ (rest rest1 : List Nat) (i column : Nat), i ≤ current →
      (∀ k, k < current - i → rest[k]? = rest1[k]?) →
      get_column_loop current tabs rest i column
        = get_column_loop current tabs rest1 i column := by
  intro rest
  induction rest with
  | nil =>
    intro rest1 i column hi hag
    cases rest1 with
    | nil => rfl
    | cons c1 r1 =>
      by_cases hic : i = current
      · simp [get_column_loop, hic]
      · have := hag 0 (by omega)
        simp at this
  | cons c r ih =>
    intro rest1 i column hi hag
    cases rest1 with
    | nil =>
      by_cases hic : i = current
      · simp [get_column_loop, hic]
      · have := hag 0 (by omega)
        simp at this
    | cons c1 r1 =>
      by_cases hic : i = current
      · simp [get_column_loop, hic]
      · have hc : c = c1 := by simpa using hag 0 (by omega)
        subst hc
        have htl : ∀ k, k < current - (i + 1) → r[k]? = r1[k]? := by
          intro k hk
          simpa using hag (k + 1) (by omega)
        simp only [get_column_loop, if_neg hic]
        rw [ih r1 (i + 1) _ (by omega) htl, ih r1 (i + 1) _ (by omega) htl]

theorem get_column_loop_total (current tabs : Nat) (ht : tabs ≠ 0) :
    ∀ (rest : List Nat) (i column : Nat), i ≤ current → current - i ≤ rest.length →
      ∃ c, get_column_loop current tabs rest i column = some c := by
  intro rest
  induction rest with
  | nil =>
    intro i column hi hlen
    have hic : i = current := by simp at hlen; omega
    exact ⟨column, by simp [get_column_loop, hic]⟩
  | cons c0 rest ih =>
    intro i column hi hlen
    by_cases hic : i = current
    · exact ⟨column, by simp [get_column_loop, hic]⟩
    · have hlen1 : current - (i + 1) ≤ rest.length := by simp at hlen; omega
      by_cases hc : c0 = TAB
      · obtain ⟨r, hr⟩ := ih (i + 1)
          (size_add column (size_sub tabs (size_sub column 1 % tabs))) (by omega) hlen1
        exact ⟨r, by simp only [get_column_loop, if_neg hic, if_pos hc, if_neg ht]; exact hr⟩
      · obtain ⟨r, hr⟩ := ih (i + 1) (size_add column 1) (by omega) hlen1
        exact ⟨r, by simp only [get_column_loop, if_neg hic, if_neg hc]; exact hr⟩

theorem get_line_start_local (s s1 : List Nat) (lower current : Nat) (h1 : lower ≤ current)
    (hag : ∀ k, lower ≤ k → k < current → s1[k]? = s[k]?) :
    get_line_start s1 lower current = get_line_start s lower current := by
  unfold get_line_start
  apply get_line_start_loop_congr current _ _ _ _ _ h1
  intro k hk
  rw [List.getElem?_drop, List.getElem?_drop]
  exact hag (lower + k) (by omega) (by omega)

/-- C11. For `lower ≤ current ≤ upper ≤ |s|` and `tabs ≥ 1`, `get_line_start`,
`get_line_end`, `get_current_line` and `get_column` all return a result: no unit is
read outside the sequence and no remainder by zero is taken (the only ways the
functions fail).  `get_line_start` and `get_column` read only indices of
`[lower, current)` and `get_line_end` only indices of `[current, upper)`: their
results are the same on every sequence that agrees with `s` on that range, whatever
it holds (or lacks) elsewhere. -/
theorem utilities_total_and_local (s : List Nat) (lower current upper tabs : Nat)
    (h1 : lower ≤ current) (h2 : current ≤ upper) (h3 : upper ≤ s.length)
    (ht : 1 ≤ tabs) :
    (∃ r, get_line_start s lower current = some r) ∧
    (∃ r, get_line_end s current upper = some r) ∧
    (∃ p, get_current_line s lower current upper = some p) ∧
    (∃ c, get_column s lower current tabs = some c) ∧
    (∀ s1 : List Nat, (∀ k, lower ≤ k → k < current → s1[k]? = s[k]?) →
      get_line_start s1 lower current = get_line_start s lower current ∧
      get_column s1 lower current tabs = get_column s lower current tabs) ∧
    (∀ s1 : List Nat, (∀ k, current ≤ k → k < upper → s1[k]? = s[k]?) →
      get_line_end s1 current upper = get_line_end s current upper) := by
  obtain ⟨r, hr, hlr, hrc, _, _⟩ :=
    get_line_start_bounds s lower current h1 (le_trans h2 h3)
  obtain ⟨e, he, _, _, _, _⟩ := get_line_end_bounds s current upper h2 h3
  obtain ⟨c, hc⟩ := get_column_loop_total current tabs (by omega) (s.drop r) r 1 hrc
    (by simp; omega)
  refine ⟨⟨r, hr⟩, ⟨e, he⟩, ⟨(r, e), by simp [get_current_line, hr, he]⟩,
    ⟨c, by simp only [get_column, hr]; exact hc⟩, ?_, ?_⟩
  · intro s1 hag
    have hls := get_line_start_local s s1 lower current h1 hag
    refine ⟨hls, ?_⟩
    simp only [get_column, hls, hr]
    apply get_column_loop_congr current tabs _ _ _ _ hrc
    intro k hk
    rw [List.getElem?_drop, List.getElem?_drop]
    exact hag (r + k) (by omega) (by omega)
  · intro s1 hag
    unfold get_line_end
    apply get_line_end_loop_congr upper _ _ _ h2
    intro k hk
    rw [List.getElem?_drop, List.getElem?_drop]
    exact hag (current + k) (by omega) (by omega)

/-- Witness of C11 on `"a\tb\nc"` with `lower = 0`, `current = 3`, `upper = 5` and
`tabs = 4`. -/
theorem utilities_total_and_local_witness :
    (0 ≤ 3 ∧ 3 ≤ 5 ∧ 5 ≤ [97, TAB, 98, LF, 99].length ∧ 1 ≤ 4) ∧
    (get_line_start [97, TAB, 98, LF, 99] 0 3 = some 0 ∧
     get_line_end [97, TAB, 98, LF, 99] 3 5 = some 3 ∧
     get_current_line [97, TAB, 98, LF, 99] 0 3 5 = some (0, 3) ∧
     get_column [97, TAB, 98, LF, 99] 0 3 4 = some 6) ∧
    ((∃ r, get_line_start [97, TAB, 98, LF, 99] 0 3 = some r) ∧
    (∃ r, get_line_end [97, TAB, 98, LF, 99] 3 5 = some r) ∧
    (∃ p, get_current_line [97, TAB, 98, LF, 99] 0 3 5 = some p) ∧
    (∃ c, get_column [97, TAB, 98, LF, 99] 0 3 4 = some c) ∧
    (∀ s1 : List Nat, (∀ k, 0 ≤ k → k < 3 → s1[k]? = [97, TAB, 98, LF, 99][k]?) →
      get_line_start s1 0 3 = get_line_start [97, TAB, 98, LF, 99] 0 3 ∧
      get_column s1 0 3 4 = get_column [97, TAB, 98, LF, 99] 0 3 4) ∧
    (∀ s1 : List Nat, (∀ k, 3 ≤ k → k < 5 → s1[k]? = [97, TAB, 98, LF, 99][k]?) →
      get_line_end s1 3 5 = get_line_end [97, TAB, 98, LF, 99] 3 5)) :=
  ⟨by decide, by decide,
    utilities_total_and_local [97, TAB, 98, LF, 99] 0 3 5 4 (by decide) (by decide)
      (by decide) (by decide)⟩

/-! ## Independence of the lower bound -/

theorem get_line_start_loop_some_length (current : Nat) :
    ∀ (rest : List Nat) (i latest : Nat) (pnl : Bool) (r : Nat), i ≤ current →
      get_line_start_loop current rest i latest pnl = some r →
      current - i ≤ rest.length := by
  intro rest
  induction rest with
  | nil =>
    intro i latest pnl r hi h
    by_cases hic : i = current
    · omega
    · simp [get_line_start_loop, hic] at h
  | cons c rest ih =>
    intro i latest pnl r hi h
    by_cases hic : i = current
    · omega
    · simp only [get_line_start_loop, if_neg hic] at h
      have := ih (i + 1) _ _ r (by omega) h
      simp only [List.length_cons]
      omega

/-- C16. For `lower ≤ current`, where `get_line_start(lower, current)` is `r`: for
every `lower1` with `lower ≤ lower1 ≤ r`, `get_line_start(lower1, current)` is `r`
too, in particular `get_line_start(r, current) = r` (idempotence); consequently
`get_column(lower1, current, tabs) = get_column(lower, current, tabs)` for every
`tabs ≥ 1`. -/
theorem get_line_start_lower_independent (s : List Nat) (lower current r lower1 : Nat)
    (h1 : lower ≤ current) (hr : get_line_start s lower current = some r)
    (h2 : lower ≤ lower1) (h3 : lower1 ≤ r) :
    get_line_start s lower1 current = some r ∧
    get_line_start s r current = some r ∧
    ∀ tabs, 1 ≤ tabs →
      get_column s lower1 current tabs = get_column s lower current tabs := by
  have hkey : ∀ l1, lower ≤ l1 → l1 ≤ r → get_line_start s l1 current = some r := by
    intro l1 hl1 hl1r
    have hlen := get_line_start_loop_some_length current (s.drop lower) lower lower false r
      h1 hr
    simp only [List.length_drop] at hlen
    rcases Nat.lt_or_ge s.length current with hgt | hle
    · -- the only call that returns beyond the sequence has `lower = current`
      have hlc : lower = current := by omega
      subst hlc
      have hrl : r = lower := by
        have : get_line_start s lower lower = some lower := by
          unfold get_line_start
          cases s.drop lower <;> simp [get_line_start_loop]
        rw [this] at hr
        simpa using hr.symm
      have hl : l1 = lower := by omega
      rw [hl]
      exact hr
    · obtain ⟨r0, hr0, hlr0, hr0c, hno0, hmax0⟩ :=
        get_line_start_bounds s lower current h1 hle
      have hrr : r0 = r := by rw [hr0] at hr; simpa using hr
      subst hrr
      obtain ⟨r1, hr1, hlr1, hr1c, hno1, hmax1⟩ :=
        get_line_start_bounds s l1 current (by omega) hle
      rw [hr1]
      congr 1
      rcases Nat.lt_trichotomy r1 r0 with hlt | heq | hgt
      · rcases hmax0 with h | ⟨_, h⟩
        · omega
        · exact absurd h (hno1 (r0 - 1) (by omega) (by omega))
      · exact heq
      · rcases hmax1 with h | ⟨_, h⟩
        · omega
        · exact absurd h (hno0 (r1 - 1) (by omega) (by omega))
  have hl1 := hkey lower1 h2 h3
  refine ⟨hl1, hkey r (by omega) (le_refl _), ?_⟩
  intro tabs _
  simp only [get_column, hl1, hr]

/-- Witness of C16 on `"ab\ncd\tx"`: from `lower = 0` and `current = 6` the line
starts at 3, and so it does from `lower1 = 2`. -/
theorem get_line_start_lower_independent_witness :
    (0 ≤ 6 ∧ get_line_start [97, 98, LF, 99, 100, TAB, 120] 0 6 = some 3 ∧ 0 ≤ 2 ∧ 2 ≤ 3) ∧
    (get_line_start [97, 98, LF, 99, 100, TAB, 120] 2 6 = some 3 ∧
     get_line_start [97, 98, LF, 99, 100, TAB, 120] 3 6 = some 3 ∧
     ∀ tabs, 1 ≤ tabs →
       get_column [97, 98, LF, 99, 100, TAB, 120] 2 6 tabs
         = get_column [97, 98, LF, 99, 100, TAB, 120] 0 6 tabs) :=
  ⟨by decide,
    get_line_start_lower_independent [97, 98, LF, 99, 100, TAB, 120] 0 6 3 2 (by decide)
      (by decide) (by decide) (by decide)⟩

/-! ## The line counter along a sequence -/

theorem bumps_le_length : ∀ (l : List Nat) (prev : Nat), bumps prev l ≤ l.length := by
  intro l
  induction l with
  | nil => intro prev; simp [bumps]
  | cons c rest ih =>
    intro prev
    have := ih c
    simp only [bumps, List.length_cons]
    split <;> omega

theorem bumps_eq_zero_iff :
    ∀ (l : List Nat) (prev : Nat), prev ≠ CR → prev ≠ LF →
      (bumps prev l = 0 ↔ ∀ c ∈ l, c ≠ CR ∧ c ≠ LF) := by
  intro l
  induction l with
  | nil => intro prev _ _; simp [bumps]
  | cons c rest ih =>
    intro prev h1 h2
    by_cases hc : c = CR ∨ c = LF
    · have hb : (prev ≠ LF ∧ c = CR) ∨ (prev ≠ CR ∧ c = LF) := by
        rcases hc with h | h
        · exact Or.inl ⟨h2, h⟩
        · exact Or.inr ⟨h1, h⟩
      constructor
      · intro h
        simp only [bumps, if_pos hb] at h
        omega
      · intro h
        have := h c (List.mem_cons_self _ _)
        tauto
    · have hn : ¬ ((prev ≠ LF ∧ c = CR) ∨ (prev ≠ CR ∧ c = LF)) := by tauto
      simp only [not_or] at hc
      simp only [bumps, if_neg hn, Nat.zero_add, List.mem_cons, forall_eq_or_imp]
      rw [ih c hc.1 hc.2]
      exact ⟨fun h => ⟨hc, h⟩, fun h => h.2⟩

/-- The line counter after `n` advances: the counter before plus the number of units
passed at which the test of `increment()` fired, as a `size_t`. -/
theorem advance_bumps (s : List Nat) :
    ∀ (n : Nat) (it0 it : line_pos_iterator Nat), advance s n it0 = some it →
      it0.line < SIZE_RANGE →
      it.line = (it0.line + bumps it0.prev ((s.drop it0.base).take n)) % SIZE_RANGE := by
  intro n
  induction n with
  | zero =>
    intro it0 it h hline
    simp only [advance, Option.some.injEq] at h
    subst h
    simp [bumps, Nat.mod_eq_of_lt hline]
  | succ n ih =>
    intro it0 it h hline
    simp only [advance] at h
    cases hs : s[it0.base]? with
    | none => simp [line_pos_iterator.increment, hs] at h
    | some ref =>
      rw [increment_some s it0 ref hs] at h
      obtain ⟨hlt, hget⟩ := List.getElem?_eq_some.1 hs
      have hdrop : s.drop it0.base = ref :: s.drop (it0.base + 1) := by
        rw [List.drop_eq_getElem_cons hlt, hget]
      have hih := ih _ it h (by
        simp only []
        split
        · exact size_add_lt _ _
        · exact hline)
      simp only [] at hih
      rw [hih, hdrop, List.take_succ_cons]
      simp only [bumps, size_add, SIZE_RANGE]
      split <;> omega

theorem advance_line_le (s : List Nat) :
    ∀ (n : Nat) (it0 it : line_pos_iterator Nat), advance s n it0 = some it →
      it.line ≤ it0.line + n := by
  intro n
  induction n with
  | zero =>
    intro it0 it h
    simp only [advance, Option.some.injEq] at h
    subst h
    omega
  | succ n ih =>
    intro it0 it h
    simp only [advance] at h
    cases hs : s[it0.base]? with
    | none => simp [line_pos_iterator.increment, hs] at h
    | some ref =>
      rw [increment_some s it0 ref hs] at h
      have hih := ih _ it h
      simp only [] at hih
      have hle : size_add it0.line 1 ≤ it0.line + 1 := Nat.mod_le _ _
      split at hih <;> omega

/-! ## Construction, reachable states and comparison -/

/-- C13. Two `line_pos_iterator`s compare equal exactly when their base cursors are
equal, whatever their `line` and `prev`: an iterator constructed at position `P` and
one advanced to `P` from the start compare equal; on `"\nab"` with `P = 1` they do,
with `position()` 1 and 2. -/
theorem equal_iff_same_base (s : List Nat) (P : Nat) (hP : P ≤ s.length) :
    (∀ (Iterator : Type) [DecidableEq Iterator] (a b : line_pos_iterator Iterator),
      a.equal b = true ↔ a.base = b.base) ∧
    (∀ (Iterator : Type) [DecidableEq Iterator] (x : Iterator) (l1 p1 l2 p2 : Nat),
      line_pos_iterator.equal { base := x, line := l1, prev := p1 }
        { base := x, line := l2, prev := p2 } = true) ∧
    (∃ it, advance s P (line_pos_iterator.ctor 0) = some it ∧
      it.equal (line_pos_iterator.ctor P) = true ∧
      (line_pos_iterator.ctor P).equal it = true) ∧
    (∃ it, advance [LF, 97, 98] 1 (line_pos_iterator.ctor 0) = some it ∧
      it.equal (line_pos_iterator.ctor 1) = true ∧
      it.position = 2 ∧ (line_pos_iterator.ctor 1 : line_pos_iterator Nat).position = 1) := by
  refine ⟨?_, ?_, ?_, ⟨_, rfl, by decide, by decide, by decide⟩⟩
  · intro Iterator _ a b
    simp [line_pos_iterator.equal]
  · intro Iterator _ x l1 p1 l2 p2
    simp [line_pos_iterator.equal]
  · obtain ⟨it, hit⟩ := advance_total s P (line_pos_iterator.ctor 0)
      (by simp only [line_pos_iterator.ctor]; omega)
    obtain ⟨hb, _, _, _⟩ := advance_reaches s P _ it hit
    have hbase : it.base = P := by simpa [line_pos_iterator.ctor] using hb
    exact ⟨it, hit, by simp [line_pos_iterator.equal, line_pos_iterator.ctor, hbase],
      by simp [line_pos_iterator.equal, line_pos_iterator.ctor, hbase]⟩

/-- Witness of C13 on `"a\r\nb"` with `P = 3`. -/
theorem equal_iff_same_base_witness :
    3 ≤ [97, CR, LF, 98].length ∧
    (∃ it, advance [97, CR, LF, 98] 3 (line_pos_iterator.ctor 0) = some it ∧
      it.equal (line_pos_iterator.ctor 3) = true ∧
      (line_pos_iterator.ctor 3).equal it = true) :=
  ⟨by decide, (equal_iff_same_base [97, CR, LF, 98] 3 (by decide)).2.2.1⟩

/-- C14. A cursor reached from a freshly constructed `line_pos_iterator` by `n`
advances with `n < 2 ^ 64 - 2` has `position() ≤ n + 1`, so its `get_line` differs
from the value `2 ^ 64 - 1` that `get_line` returns for a plain cursor. -/
theorem get_line_tracking_ne_unknown (s : List Nat) (b n : Nat)
    (it : line_pos_iterator Nat)
    (hreach : advance s n (line_pos_iterator.ctor b) = some it) (hn : n < 2 ^ 64 - 2) :
    it.position ≤ n + 1 ∧
    get_line (get_line_arg.tracking it) ≠ 2 ^ 64 - 1 ∧
    ∀ (Iterator : Type) (x : Iterator),
      get_line (get_line_arg.tracking it) ≠ get_line (get_line_arg.plain x) := by
  have hle := advance_line_le s n _ it hreach
  have hle1 : it.line ≤ n + 1 := by
    simp only [line_pos_iterator.ctor] at hle; omega
  have hplain : to_size_t (-1) = 2 ^ 64 - 1 := by decide
  refine ⟨hle1, ?_, ?_⟩
  · show it.line ≠ 2 ^ 64 - 1
    omega
  · intro Iterator x
    show it.line ≠ to_size_t (-1)
    rw [hplain]
    omega

/-- Witness of C14 on `"\n\nx"` after two advances. -/
theorem get_line_tracking_ne_unknown_witness :
    (advance [LF, LF, 120] 2 (line_pos_iterator.ctor 0)
        = some { base := 2, line := 3, prev := LF } ∧ 2 < 2 ^ 64 - 2) ∧
    (({ base := 2, line := 3, prev := LF } : line_pos_iterator Nat).position ≤ 2 + 1 ∧
    get_line (get_line_arg.tracking
      ({ base := 2, line := 3, prev := LF } : line_pos_iterator Nat)) ≠ 2 ^ 64 - 1 ∧
    ∀ (Iterator : Type) (x : Iterator),
      get_line (get_line_arg.tracking
        ({ base := 2, line := 3, prev := LF } : line_pos_iterator Nat))
        ≠ get_line (get_line_arg.plain x)) :=
  ⟨⟨by decide, by decide⟩,
    get_line_tracking_ne_unknown [LF, LF, 120] 0 2 { base := 2, line := 3, prev := LF }
      (by decide) (by decide)⟩

/-! ## The line counter against the newline units of the sequence -/

theorem newline_at_iff_mem_take (s : List Nat) (P : Nat) (hP : P ≤ s.length) :
    (∀ k, k < P → ¬ newline_at s k) ↔ ∀ c ∈ s.take P, c ≠ CR ∧ c ≠ LF := by
  constructor
  · intro h c hc
    obtain ⟨k, hk, hget⟩ := List.getElem_of_mem hc
    have hkP : k < P := by
      rw [List.length_take] at hk; omega
    have hnl := h k hkP
    have hsk : s[k]? = some c := by
      rw [List.getElem_take] at hget
      rw [List.getElem?_eq_getElem (by omega), hget]
    unfold newline_at at hnl
    rw [hsk] at hnl
    simp only [Option.some.injEq, not_or] at hnl
    exact hnl
  · intro h k hk
    have hlt : k < s.length := by omega
    have hmem : s[k] ∈ s.take P := by
      rw [List.mem_iff_getElem]
      exact ⟨k, by rw [List.length_take]; omega, by rw [List.getElem_take]⟩
    have := h _ hmem
    unfold newline_at
    rw [List.getElem?_eq_getElem hlt]
    simp only [Option.some.injEq, not_or]
    exact this

/-- The line counter of a fresh iterator at index 0 after `P` advances. -/
theorem advance_fresh_line (s : List Nat) (P : Nat) (it : line_pos_iterator Nat)
    (h : advance s P (line_pos_iterator.ctor 0) = some it) :
    it.line = (1 + bumps 0 (s.take P)) % SIZE_RANGE ∧ bumps 0 (s.take P) ≤ P := by
  have hb := advance_bumps s P _ it h (by simp [line_pos_iterator.ctor])
  simp only [line_pos_iterator.ctor, List.drop_zero] at hb
  refine ⟨hb, ?_⟩
  have := bumps_le_length (s.take P) 0
  rw [List.length_take] at this
  omega

/-! ## Symmetry of CR and LF -/

theorem swap_newline_test (c : Nat) :
    (swap_newline c == CR || swap_newline c == LF) = (c == CR || c == LF) := by
  unfold swap_newline
  by_cases h1 : c = CR
  · simp [h1]
  · by_cases h2 : c = LF
    · simp [h2]
    · simp [h1, h2]

theorem swap_newline_eq_CR (c : Nat) : swap_newline c = CR ↔ c = LF := by
  unfold swap_newline
  by_cases h1 : c = CR
  · simp [h1]
  · by_cases h2 : c = LF
    · simp [h2]
    · simp [h1, h2]

theorem swap_newline_eq_LF (c : Nat) : swap_newline c = LF ↔ c = CR := by
  unfold swap_newline
  by_cases h1 : c = CR
  · simp [h1]
  · by_cases h2 : c = LF
    · simp [h2]
    · simp [h1, h2]

theorem swap_newline_eq_TAB (c : Nat) : swap_newline c = TAB ↔ c = TAB := by
  unfold swap_newline
  by_cases h1 : c = CR
  · simp [h1]
  · by_cases h2 : c = LF
    · simp [h2]
    · simp [h1, h2]

theorem get_line_start_loop_swap (current : Nat) :
    ∀ (rest : List Nat) (i latest : Nat) (pnl : Bool),
      get_line_start_loop current (rest.map swap_newline) i latest pnl
        = get_line_start_loop current rest i latest pnl := by
  intro rest
  induction rest with
  | nil => intro i latest pnl; rfl
  | cons c rest ih =>
    intro i latest pnl
    simp only [List.map_cons, get_line_start_loop, swap_newline_test, ih]

theorem get_line_end_loop_swap (upper : Nat) :
    ∀ (rest : List Nat) (i : Nat),
      get_line_end_loop upper (rest.map swap_newline) i
        = get_line_end_loop upper rest i := by
  intro rest
  induction rest with
  | nil => intro i; rfl
  | cons c rest ih =>
    intro i
    have hc : (swap_newline c = LF ∨ swap_newline c = CR) ↔ (c = LF ∨ c = CR) := by
      rw [swap_newline_eq_LF, swap_newline_eq_CR]; tauto
    simp only [List.map_cons, get_line_end_loop, ih]
    by_cases h : c = LF ∨ c = CR
    · rw [if_pos h, if_pos (hc.2 h)]
    · rw [if_neg h, if_neg (fun h1 => h (hc.1 h1))]

theorem get_column_loop_swap (current tabs : Nat) :
    ∀ (rest : List Nat) (i column : Nat),
      get_column_loop current tabs (rest.map swap_newline) i column
        = get_column_loop current tabs rest i column := by
  intro rest
  induction rest with
  | nil => intro i column; rfl
  | cons c rest ih =>
    intro i column
    simp only [List.map_cons, get_column_loop, ih]
    by_cases h : c = TAB
    · rw [if_pos h, if_pos ((swap_newline_eq_TAB c).2 h)]
    · rw [if_neg h, if_neg (fun h1 => h ((swap_newline_eq_TAB c).1 h1))]

theorem get_line_start_swap (s : List Nat) (lower current : Nat) :
    get_line_start (s.map swap_newline) lower current = get_line_start s lower current := by
  unfold get_line_start
  rw [← List.map_drop, get_line_start_loop_swap]

theorem get_line_end_swap (s : List Nat) (current upper : Nat) :
    get_line_end (s.map swap_newline) current upper = get_line_end s current upper := by
  unfold get_line_end
  rw [← List.map_drop, get_line_end_loop_swap]

theorem get_column_swap (s : List Nat) (lower current tabs : Nat) :
    get_column (s.map swap_newline) lower current tabs = get_column s lower current tabs := by
  unfold get_column
  rw [get_line_start_swap]
  cases get_line_start s lower current with
  | none => rfl
  | some r =>
    show get_column_loop current tabs ((s.map swap_newline).drop r) r 1
      = get_column_loop current tabs (s.drop r) r 1
    rw [← List.map_drop, get_column_loop_swap]

/-- The iterator with CR and LF exchanged in `prev`. -/
theorem advance_swap (s : List Nat) :
    ∀ (n : Nat) (it : line_pos_iterator Nat),
      advance (s.map swap_newline) n
          { base := it.base, line := it.line, prev := swap_newline it.prev }
        = (advance s n it).map
            (fun r => { base := r.base, line := r.line, prev := swap_newline r.prev }) := by
  intro n
  induction n with
  | zero => intro it; rfl
  | succ n ih =>
    intro it
    simp only [advance]
    cases hs : s[it.base]? with
    | none =>
      have h1 : it.increment s = none := by simp [line_pos_iterator.increment, hs]
      have h2 : line_pos_iterator.increment (s.map swap_newline)
          { base := it.base, line := it.line, prev := swap_newline it.prev } = none := by
        simp [line_pos_iterator.increment, hs]
      rw [h1, h2]; rfl
    | some ref =>
      have hs1 : (s.map swap_newline)[it.base]? = some (swap_newline ref) := by
        rw [List.getElem?_map, hs]; rfl
      have hcond : ((swap_newline it.prev ≠ LF ∧ swap_newline ref = CR) ∨
            (swap_newline it.prev ≠ CR ∧ swap_newline ref = LF)) ↔
          ((it.prev ≠ LF ∧ ref = CR) ∨ (it.prev ≠ CR ∧ ref = LF)) := by
        simp only [ne_eq, swap_newline_eq_LF, swap_newline_eq_CR]
        tauto
      rw [increment_some s it ref hs,
        increment_some (s.map swap_newline)
          { base := it.base, line := it.line, prev := swap_newline it.prev }
          (swap_newline ref) hs1]
      simp only []
      rw [← ih]
      by_cases h : (it.prev ≠ LF ∧ ref = CR) ∨ (it.prev ≠ CR ∧ ref = LF)
      · rw [if_pos h, if_pos (hcond.2 h)]
      · rw [if_neg h, if_neg (fun h1 => h (hcond.1 h1))]

/-- C19. With `s1` the sequence `s` in which every CR is replaced by LF and every LF
by CR, a `line_pos_iterator` advanced `n` units over `s1` has the same `position()`
as one advanced `n` units over `s`, and `get_line_start`, `get_line_end`,
`get_current_line` and `get_column` return the same results on `s1` as on `s`, for
all bounds and tab widths. -/
theorem newline_symmetry (s : List Nat) (n b : Nat) :
    (advance (s.map swap_newline) n (line_pos_iterator.ctor b)).map
        line_pos_iterator.position
      = (advance s n (line_pos_iterator.ctor b)).map line_pos_iterator.position ∧
    (∀ lower current, get_line_start (s.map swap_newline) lower current
      = get_line_start s lower current) ∧
    (∀ current upper, get_line_end (s.map swap_newline) current upper
      = get_line_end s current upper) ∧
    (∀ lower current upper, get_current_line (s.map swap_newline) lower current upper
      = get_current_line s lower current upper) ∧
    (∀ lower current tabs, get_column (s.map swap_newline) lower current tabs
      = get_column s lower current tabs) := by
  refine ⟨?_, get_line_start_swap s, get_line_end_swap s, ?_, get_column_swap s⟩
  · have h : advance (s.map swap_newline) n (line_pos_iterator.ctor b)
        = (advance s n (line_pos_iterator.ctor b)).map
            (fun r => { base := r.base, line := r.line, prev := swap_newline r.prev }) :=
      advance_swap s n (line_pos_iterator.ctor b)
    rw [h]
    cases advance s n (line_pos_iterator.ctor b) <;> rfl
  · intro lower current upper
    simp only [get_current_line, get_line_start_swap, get_line_end_swap]

/-! ## Columns along a line -/

theorem exact_column_ge (tabs : Nat) (ht : 1 ≤ tabs) :
    ∀ (l : List Nat) (column : Nat), column + l.length ≤ exact_column tabs column l := by
  intro l
  induction l with
  | nil => intro column; simp [exact_column]
  | cons c rest ih =>
    intro column
    have hx : (column - 1) % tabs < tabs := Nat.mod_lt _ (by omega)
    simp only [exact_column, List.length_cons]
    split
    · have := ih (column + (tabs - (column - 1) % tabs))
      omega
    · have := ih (column + 1)
      omega

theorem exact_column_snoc (tabs : Nat) :
    ∀ (l : List Nat) (column c : Nat),
      exact_column tabs column (l ++ [c])
        = if c = TAB then exact_column tabs column l
              + (tabs - (exact_column tabs column l - 1) % tabs)
          else exact_column tabs column l + 1 := by
  intro l
  induction l with
  | nil => intro column c; simp [exact_column]
  | cons d rest ih =>
    intro column c
    show exact_column tabs
        (if d = TAB then column + (tabs - (column - 1) % tabs) else column + 1)
        (rest ++ [c]) = _
    rw [ih]
    rfl

/-- While the exact column stays below `2 ^ 64`, the loop of `get_column` computes
it. -/
theorem get_column_loop_exact (current tabs : Nat) (ht : 1 ≤ tabs) :
    ∀ (rest : List Nat) (i column : Nat), 1 ≤ column → i ≤ current →
      current - i ≤ rest.length →
      exact_column tabs column (rest.take (current - i)) < 2 ^ 64 →
      get_column_loop current tabs rest i column
        = some (exact_column tabs column (rest.take (current - i))) := by
  intro rest
  induction rest with
  | nil =>
    intro i column _ hi hlen _
    have hic : i = current := by simp at hlen; omega
    simp [get_column_loop, hic, exact_column]
  | cons c rest ih =>
    intro i column hcol hi hlen hfit
    by_cases hic : i = current
    · simp [get_column_loop, hic, exact_column]
    · have hlen1 : current - (i + 1) ≤ rest.length := by simp at hlen; omega
      have hx : (column - 1) % tabs < tabs := Nat.mod_lt _ (by omega)
      rw [show current - i = (current - (i + 1)) + 1 by omega, List.take_succ_cons] at hfit ⊢
      simp only [exact_column] at hfit ⊢
      by_cases hc : c = TAB
      · rw [if_pos hc] at hfit ⊢
        have hge := exact_column_ge tabs ht (rest.take (current - (i + 1)))
          (column + (tabs - (column - 1) % tabs))
        have hstep := (tab_stop_arith column tabs hcol ht (by omega)).1
        simp only [get_column_loop, if_neg hic, if_pos hc, hstep]
        rw [if_neg (by omega)]
        exact ih (i + 1) _ (by omega) (by omega) hlen1 hfit
      · rw [if_neg hc] at hfit ⊢
        have hge := exact_column_ge tabs ht (rest.take (current - (i + 1))) (column + 1)
        have hstep : size_add column 1 = column + 1 := by
          simp only [size_add, SIZE_RANGE]
          exact Nat.mod_eq_of_lt (by omega)
        simp only [get_column_loop, if_neg hic, if_neg hc, hstep]
        exact ih (i + 1) _ (by omega) (by omega) hlen1 hfit

/-- C17 (amended). For `lower ≤ current < |s|` and `tabs ≥ 1`, with `line` the units
of `[get_line_start(lower, current), current)`: whenever the column of `line`
computed without wrap-around is below `2 ^ 64`, `get_column(lower, current, tabs)` is
that column, it is at least 1, and it is 1 exactly when
`current = get_line_start(lower, current)`; if `s[current]` is neither CR nor LF and
the column computed without wrap-around up to `current + 1` is below `2 ^ 64`, then
`get_column(lower, current + 1, tabs) - get_column(lower, current, tabs)` is 1 when
`s[current]` is not a tab and lies in `[1, tabs]` when it is; and
`tabs - (column - 1) % tabs` never wraps below zero. -/
theorem get_column_increasing (s : List Nat) (lower current tabs : Nat)
    (h1 : lower ≤ current) (h2 : current < s.length) (ht : 1 ≤ tabs) :
    ∃ line_start col, get_line_start s lower current = some line_start ∧
      get_column s lower current tabs = some col ∧
      (exact_column tabs 1 ((s.drop line_start).take (current - line_start)) < 2 ^ 64 →
        col = exact_column tabs 1 ((s.drop line_start).take (current - line_start)) ∧
        1 ≤ col ∧ (col = 1 ↔ current = line_start)) ∧
      (¬ newline_at s current →
        ∃ col1, get_column s lower (current + 1) tabs = some col1 ∧
          (exact_column tabs 1 ((s.drop line_start).take (current + 1 - line_start))
              < 2 ^ 64 →
            (s[current]? ≠ some TAB → col1 - col = 1) ∧
            (s[current]? = some TAB → 1 ≤ col1 - col ∧ col1 - col ≤ tabs))) ∧
      (∀ column, tabs < 2 ^ 64 →
        size_sub column 1 % tabs < tabs ∧
        size_sub tabs (size_sub column 1 % tabs) = tabs - size_sub column 1 % tabs ∧
        1 ≤ tabs - size_sub column 1 % tabs ∧ tabs - size_sub column 1 % tabs ≤ tabs) := by
  obtain ⟨r, hr, hlr, hrc, _, _⟩ := get_line_start_bounds s lower current h1 (by omega)
  obtain ⟨col, hcol⟩ := get_column_loop_total current tabs (by omega) (s.drop r) r 1 hrc
    (by simp; omega)
  have hlenr : ((s.drop r).take (current - r)).length = current - r := by
    rw [List.length_take, List.length_drop]; omega
  have hexact : exact_column tabs 1 ((s.drop r).take (current - r)) < 2 ^ 64 →
      col = exact_column tabs 1 ((s.drop r).take (current - r)) := by
    intro hfit
    have := get_column_loop_exact current tabs ht (s.drop r) r 1 (le_refl _) hrc
      (by simp; omega) hfit
    rw [hcol] at this
    simpa using this
  refine ⟨r, col, hr, by simp only [get_column, hr]; exact hcol, ?_, ?_, ?_⟩
  · intro hfit
    have hge := exact_column_ge tabs ht ((s.drop r).take (current - r)) 1
    rw [hlenr] at hge
    refine ⟨hexact hfit, by rw [hexact hfit]; omega, ?_⟩
    rw [hexact hfit]
    constructor
    · intro h; omega
    · intro h
      rw [← h, Nat.sub_self, List.take_zero]
      rfl
  · intro hnl
    have hr1 : get_line_start s lower (current + 1) = some r := by
      rw [get_line_start_step s lower current h1 h2 hnl, hr]
    obtain ⟨col1, hcol1⟩ := get_column_loop_total (current + 1) tabs (by omega) (s.drop r) r 1
      (by omega) (by simp; omega)
    refine ⟨col1, by simp only [get_column, hr1]; exact hcol1, ?_⟩
    intro hfit1
    have htake : (s.drop r).take (current + 1 - r)
        = (s.drop r).take (current - r) ++ [s[current]] := by
      rw [show current + 1 - r = (current - r) + 1 by omega, List.take_succ,
        List.getElem?_drop, show r + (current - r) = current by omega,
        List.getElem?_eq_getElem h2]
      rfl
    have hc1 := get_column_loop_exact (current + 1) tabs ht (s.drop r) r 1 (le_refl _)
      (by omega) (by simp; omega) hfit1
    rw [hcol1] at hc1
    have hcol1e : col1 = exact_column tabs 1 ((s.drop r).take (current + 1 - r)) := by
      simpa using hc1
    rw [htake, exact_column_snoc] at hfit1 hcol1e
    have hge := exact_column_ge tabs ht ((s.drop r).take (current - r)) 1
    have hx : (exact_column tabs 1 ((s.drop r).take (current - r)) - 1) % tabs < tabs :=
      Nat.mod_lt _ (by omega)
    have hget : s[current]? = some s[current] := List.getElem?_eq_getElem h2
    by_cases hc : s[current] = TAB
    · rw [if_pos hc] at hfit1 hcol1e
      have hcole := hexact (by omega)
      refine ⟨fun hne => absurd (by rw [hget, hc]) hne, fun _ => ?_⟩
      rw [hcol1e, hcole]
      omega
    · rw [if_neg hc] at hfit1 hcol1e
      have hcole := hexact (by omega)
      refine ⟨fun _ => ?_, fun he => ?_⟩
      · rw [hcol1e, hcole]; omega
      · rw [hget] at he
        exact absurd (by simpa using he) hc
  · intro column htabs
    have hx : size_sub column 1 % tabs < tabs := Nat.mod_lt _ (by omega)
    refine ⟨hx, ?_, by omega, by omega⟩
    generalize size_sub column 1 % tabs = x at hx
    simp only [size_sub, SIZE_RANGE]
    omega

/-- Witness of C17 on `"x\na\tb"` with `lower = 0`, `current = 3` (the tab) and
`tabs = 4`: the column goes from 2 to 5. -/
theorem get_column_increasing_witness :
    (0 ≤ 3 ∧ 3 < [120, LF, 97, TAB, 98].length ∧ 1 ≤ 4) ∧
    (get_column [120, LF, 97, TAB, 98] 0 3 4 = some 2 ∧
     get_column [120, LF, 97, TAB, 98] 0 (3 + 1) 4 = some 5) ∧
    (∃ line_start col, get_line_start [120, LF, 97, TAB, 98] 0 3 = some line_start ∧
      get_column [120, LF, 97, TAB, 98] 0 3 4 = some col ∧
      (exact_column 4 1 (([120, LF, 97, TAB, 98].drop line_start).take (3 - line_start))
          < 2 ^ 64 →
        col = exact_column 4 1
          (([120, LF, 97, TAB, 98].drop line_start).take (3 - line_start)) ∧
        1 ≤ col ∧ (col = 1 ↔ 3 = line_start)) ∧
      (¬ newline_at [120, LF, 97, TAB, 98] 3 →
        ∃ col1, get_column [120, LF, 97, TAB, 98] 0 (3 + 1) 4 = some col1 ∧
          (exact_column 4 1
              (([120, LF, 97, TAB, 98].drop line_start).take (3 + 1 - line_start))
              < 2 ^ 64 →
            ([120, LF, 97, TAB, 98][3]? ≠ some TAB → col1 - col = 1) ∧
            ([120, LF, 97, TAB, 98][3]? = some TAB → 1 ≤ col1 - col ∧ col1 - col ≤ 4))) ∧
      (∀ column, 4 < 2 ^ 64 →
        size_sub column 1 % 4 < 4 ∧
        size_sub 4 (size_sub column 1 % 4) = 4 - size_sub column 1 % 4 ∧
        1 ≤ 4 - size_sub column 1 % 4 ∧ 4 - size_sub column 1 % 4 ≤ 4)) :=
  ⟨by decide, by decide,
    get_column_increasing [120, LF, 97, TAB, 98] 0 3 4 (by decide) (by decide) (by decide)⟩

/-- C17 (counterexample). On `"\ta"` with `tabs = 2 ^ 64 - 1`, `get_column` at index 1
is 0: not at least 1, and the difference to the column 1 at index 0 is not in
`[1, tabs]`. -/
theorem get_column_increasing_counterexample :
    (0 ≤ 1 ∧ 1 < [TAB, 97].length ∧ 1 ≤ 2 ^ 64 - 1) ∧
    get_column [TAB, 97] 0 0 (2 ^ 64 - 1) = some 1 ∧
    get_column [TAB, 97] 0 1 (2 ^ 64 - 1) = some 0 ∧
    ¬ (1 ≤ 0) ∧ ¬ (1 ≤ 0 - 1) := by
  decide

/-! ## The line counter and the column on sequences shorter than `2 ^ 64 - 1` units

On such a sequence neither the line counter nor the column with `tabs = 1` can reach
the end of the `size_t` range: both grow by at most one per unit. -/

/-- On a sequence shorter than `2 ^ 64 - 1` units, the line counter of an iterator
constructed with `line = 1` and advanced `n` times is one plus the number of units at
which the test of `increment()` fired, without wrap-around. -/
theorem advance_line_exact (s : List Nat) (n : Nat) (it0 it : line_pos_iterator Nat)
    (h : advance s n it0 = some it) (h0 : it0.line = 1) (hlen : s.length < 2 ^ 64 - 1) :
    it.line = 1 + bumps it0.prev ((s.drop it0.base).take n) ∧
    bumps it0.prev ((s.drop it0.base).take n) ≤ n ∧
    it.line < 2 ^ 64 - 1 + 1 := by
  have hb := advance_bumps s n it0 it h (by rw [h0]; norm_num)
  have hle := bumps_le_length ((s.drop it0.base).take n) it0.prev
  have hlt : ((s.drop it0.base).take n).length ≤ s.length := by
    rw [List.length_take, List.length_drop]; omega
  have hln : ((s.drop it0.base).take n).length ≤ n := by
    rw [List.length_take]; exact Nat.min_le_left _ _
  rw [h0] at hb
  simp only [SIZE_RANGE] at hb
  rw [Nat.mod_eq_of_lt (by omega)] at hb
  exact ⟨hb, by omega, by omega⟩

/-- C5. On a sequence of LF units only (shorter than `2 ^ 64 - 1` units, as every
sequence the iterator can traverse), advancing a fresh iterator past `k` units leaves
`position() = k + 1`; on `"\n\n"` the two advances are two increments
(`position()` 3). -/
theorem advance_all_LF (s : List Nat) (k : Nat)
    (hs : ∀ c ∈ s, c = LF) (hk : k ≤ s.length) (hlen : s.length < 2 ^ 64 - 1) :
    (∃ it, advance s k (line_pos_iterator.ctor 0) = some it ∧ it.position = k + 1) ∧
    (advance [LF, LF] 2 (line_pos_iterator.ctor 0)).map line_pos_iterator.position
      = some (2 + 1) := by
  refine ⟨⟨_, advance_fresh_same_unit s LF CR (Or.inl ⟨rfl, rfl⟩) k hs hk, ?_⟩, by decide⟩
  show (1 + k) % 2 ^ 64 = k + 1
  rw [Nat.mod_eq_of_lt (by omega)]
  omega

/-- Witness of C5 on `"\n\n\n"` with `k = 3`. -/
theorem advance_all_LF_witness :
    ((∀ c ∈ [LF, LF, LF], c = LF) ∧ 3 ≤ [LF, LF, LF].length ∧
      [LF, LF, LF].length < 2 ^ 64 - 1) ∧
    (∃ it, advance [LF, LF, LF] 3 (line_pos_iterator.ctor 0) = some it ∧
      it.position = 3 + 1) :=
  ⟨by decide, (advance_all_LF [LF, LF, LF] 3 (by decide) (by decide) (by decide)).1⟩

/-- C6. On a sequence shorter than `2 ^ 64 - 1` units, where a prefix of `n` units is
empty or ends in a unit that is neither CR nor LF, advancing across a following pair
`"\r\n"` or `"\n\r"` increases `position()` by exactly 1; a fresh iterator on the
two-unit sequence `"\r\n"` or `"\n\r"` goes from 1 to 2. -/
theorem advance_across_pair (s : List Nat) (n : Nat)
    (hpre : n = 0 ∨ ∃ c, s[n - 1]? = some c ∧ c ≠ CR ∧ c ≠ LF)
    (hpair : (s[n]? = some CR ∧ s[n + 1]? = some LF) ∨
             (s[n]? = some LF ∧ s[n + 1]? = some CR))
    (hlen : s.length < 2 ^ 64 - 1) :
    (∃ it it2, advance s n (line_pos_iterator.ctor 0) = some it ∧
      advance s 2 it = some it2 ∧
      advance s (n + 2) (line_pos_iterator.ctor 0) = some it2 ∧
      it2.position = it.position + 1) ∧
    (advance [CR, LF] 2 (line_pos_iterator.ctor 0)).map line_pos_iterator.position
      = some (1 + 1) ∧
    (advance [LF, CR] 2 (line_pos_iterator.ctor 0)).map line_pos_iterator.position
      = some (1 + 1) := by
  refine ⟨?_, by decide, by decide⟩
  have hlt : n + 1 < s.length := by
    rcases hpair with ⟨_, h⟩ | ⟨_, h⟩
    · exact (List.getElem?_eq_some.1 h).1
    · exact (List.getElem?_eq_some.1 h).1
  obtain ⟨it, hit⟩ := advance_total s n (line_pos_iterator.ctor 0)
    (by simp only [line_pos_iterator.ctor]; omega)
  obtain ⟨hb, hl, hp, hz⟩ := advance_reaches s n _ it hit
  have hbase : it.base = n := by simpa [line_pos_iterator.ctor] using hb
  have hline : it.line ≤ n + 1 := by
    have := advance_line_le s n _ it hit
    simp only [line_pos_iterator.ctor] at this
    omega
  have hprev : it.prev ≠ CR ∧ it.prev ≠ LF := by
    rcases hpre with h0 | ⟨c, hc, hc1, hc2⟩
    · rw [hz h0]; simp [line_pos_iterator.ctor]
    · rcases Nat.eq_zero_or_pos n with h0 | hpos
      · rw [hz h0]; simp [line_pos_iterator.ctor]
      · have := hp hpos
        simp only [line_pos_iterator.ctor, Nat.zero_add] at this
        rw [hc] at this
        have hcp : c = it.prev := by simpa using this
        rw [← hcp]; exact ⟨hc1, hc2⟩
  have h2 : ∃ o, advance s 2 it = some
      { base := it.base + 2, line := size_add it.line 1, prev := o } := by
    rcases hpair with ⟨ha, hb2⟩ | ⟨ha, hb2⟩
    · exact ⟨LF, advance_pair s CR LF (Or.inr ⟨rfl, rfl⟩) it hprev.2
        (by rw [hbase]; exact ha) (by rw [hbase]; exact hb2)⟩
    · exact ⟨CR, advance_pair s LF CR (Or.inl ⟨rfl, rfl⟩) it hprev.1
        (by rw [hbase]; exact ha) (by rw [hbase]; exact hb2)⟩
  obtain ⟨o, h2⟩ := h2
  refine ⟨it, _, hit, h2, ?_, ?_⟩
  · rw [advance_add, hit]; exact h2
  · show (it.line + 1) % 2 ^ 64 = it.line + 1
    exact Nat.mod_eq_of_lt (by omega)

/-- Witness of C6 on `"ab\r\n"` with the prefix `"ab"`. -/
theorem advance_across_pair_witness :
    ((2 = 0 ∨ ∃ c, [97, 98, CR, LF][2 - 1]? = some c ∧ c ≠ CR ∧ c ≠ LF) ∧
     (([97, 98, CR, LF][2]? = some CR ∧ [97, 98, CR, LF][2 + 1]? = some LF) ∨
      ([97, 98, CR, LF][2]? = some LF ∧ [97, 98, CR, LF][2 + 1]? = some CR)) ∧
     [97, 98, CR, LF].length < 2 ^ 64 - 1) ∧
    (∃ it it2, advance [97, 98, CR, LF] 2 (line_pos_iterator.ctor 0) = some it ∧
      advance [97, 98, CR, LF] 2 it = some it2 ∧
      advance [97, 98, CR, LF] (2 + 2) (line_pos_iterator.ctor 0) = some it2 ∧
      it2.position = it.position + 1) :=
  ⟨⟨Or.inr ⟨98, by decide⟩, Or.inl (by decide), by decide⟩,
    (advance_across_pair [97, 98, CR, LF] 2 (Or.inr ⟨98, by decide⟩)
      (Or.inl (by decide)) (by decide)).1⟩

/-- C7. On a sequence of CR units only (shorter than `2 ^ 64 - 1` units, as every
sequence the iterator can traverse) and one of LF units only, advancing a fresh
iterator past `k` units gives the same `position()` on both, namely `k + 1`. -/
theorem advance_all_CR (scr slf : List Nat) (k : Nat)
    (hcr : ∀ c ∈ scr, c = CR) (hlf : ∀ c ∈ slf, c = LF)
    (hkcr : k ≤ scr.length) (hklf : k ≤ slf.length)
    (hlen : scr.length < 2 ^ 64 - 1) :
    ∃ itcr itlf, advance scr k (line_pos_iterator.ctor 0) = some itcr ∧
      advance slf k (line_pos_iterator.ctor 0) = some itlf ∧
      itcr.position = itlf.position ∧ itcr.position = k + 1 := by
  refine ⟨_, _, advance_fresh_same_unit scr CR LF (Or.inr ⟨rfl, rfl⟩) k hcr hkcr,
    advance_fresh_same_unit slf LF CR (Or.inl ⟨rfl, rfl⟩) k hlf hklf, rfl, ?_⟩
  show (1 + k) % 2 ^ 64 = k + 1
  rw [Nat.mod_eq_of_lt (by omega)]
  omega

/-- Witness of C7 on `"\r\r"` and `"\n\n"` with `k = 2`. -/
theorem advance_all_CR_witness :
    ((∀ c ∈ [CR, CR], c = CR) ∧ (∀ c ∈ [LF, LF], c = LF) ∧
      2 ≤ [CR, CR].length ∧ 2 ≤ [LF, LF].length ∧
      [CR, CR].length < 2 ^ 64 - 1) ∧
    (∃ itcr itlf, advance [CR, CR] 2 (line_pos_iterator.ctor 0) = some itcr ∧
      advance [LF, LF] 2 (line_pos_iterator.ctor 0) = some itlf ∧
      itcr.position = itlf.position ∧ itcr.position = 2 + 1) :=
  ⟨by decide, advance_all_CR [CR, CR] [LF, LF] 2 (by decide) (by decide) (by decide)
    (by decide) (by decide)⟩

/-- C9. For `lower ≤ current ≤ |s|` on a sequence shorter than `2 ^ 64 - 1` units,
`get_column(lower, current, 1)` equals
`1 + (current - get_line_start(lower, current))`: with `tabs = 1` every unit, tab or
not, is exactly one column step. -/
theorem get_column_tab_width_one (s : List Nat) (lower current : Nat)
    (h1 : lower ≤ current) (h2 : current ≤ s.length) (hlen : s.length < 2 ^ 64 - 1) :
    ∃ line_start column, get_line_start s lower current = some line_start ∧
      get_column s lower current 1 = some column ∧
      column = 1 + (current - line_start) := by
  obtain ⟨r, hr, _, hcol⟩ := get_column_tabs_one s lower current h1 h2
  refine ⟨r, _, hr, hcol, ?_⟩
  simp only [SIZE_RANGE]
  exact Nat.mod_eq_of_lt (by omega)

/-- Witness of C9 on `"x\na\tb"` between `0` and `5`: the line starts at 2 and the
column is 4. -/
theorem get_column_tab_width_one_witness :
    (0 ≤ 5 ∧ 5 ≤ [120, LF, 97, TAB, 98].length ∧
      [120, LF, 97, TAB, 98].length < 2 ^ 64 - 1) ∧
    (get_line_start [120, LF, 97, TAB, 98] 0 5 = some 2 ∧
      get_column [120, LF, 97, TAB, 98] 0 5 1 = some 4) ∧
    (∃ line_start column, get_line_start [120, LF, 97, TAB, 98] 0 5 = some line_start ∧
      get_column [120, LF, 97, TAB, 98] 0 5 1 = some column ∧
      column = 1 + (5 - line_start)) :=
  ⟨by decide, by decide,
    get_column_tab_width_one [120, LF, 97, TAB, 98] 0 5 (by decide) (by decide)
      (by decide)⟩

/-- C12. Both constructors give `position() = 1`; on a sequence shorter than
`2 ^ 64 - 1` units every state reached from a constructed iterator by any number `n`
of advances has `position() ≥ 1` (and at most `n + 1`); and dereferencing returns the
iterator unchanged, `position()` included. -/
theorem position_at_least_one (s : List Nat) (b n : Nat) (it : line_pos_iterator Nat)
    (hreach : advance s n (line_pos_iterator.ctor b) = some it ∨
      advance s n line_pos_iterator.ctor_default = some it)
    (hlen : s.length < 2 ^ 64 - 1) :
    (∀ (Iterator : Type) [Inhabited Iterator] (x : Iterator),
      (line_pos_iterator.ctor_default : line_pos_iterator Iterator).position = 1 ∧
      (line_pos_iterator.ctor x).position = 1) ∧
    (1 ≤ it.position ∧ it.position ≤ n + 1) ∧
    (∀ c it1, it.dereference s = some (c, it1) →
      it1 = it ∧ it1.position = it.position) := by
  refine ⟨fun _ _ _ => ⟨rfl, rfl⟩, ?_, ?_⟩
  · have hkey : ∀ it0 : line_pos_iterator Nat, it0.line = 1 → advance s n it0 = some it →
        1 ≤ it.line ∧ it.line ≤ n + 1 := by
      intro it0 h0 h
      obtain ⟨he, hb, _⟩ := advance_line_exact s n it0 it h h0 hlen
      omega
    rcases hreach with h | h
    · exact hkey _ rfl h
    · exact hkey _ rfl h
  · intro c it1 h
    unfold line_pos_iterator.dereference at h
    cases hs : s[it.base]? with
    | none => simp [hs] at h
    | some u =>
      simp only [hs, Option.some.injEq, Prod.mk.injEq] at h
      rw [← h.2]
      exact ⟨rfl, rfl⟩

/-- Witness of C12 on `"a\n\nb"`: three advances from index 0 reach line 3. -/
theorem position_at_least_one_witness :
    ((advance [97, LF, LF, 98] 3 (line_pos_iterator.ctor 0)
        = some { base := 3, line := 3, prev := LF } ∨
      advance [97, LF, LF, 98] 3 line_pos_iterator.ctor_default
        = some { base := 3, line := 3, prev := LF }) ∧
      [97, LF, LF, 98].length < 2 ^ 64 - 1) ∧
    ((∀ (Iterator : Type) [Inhabited Iterator] (x : Iterator),
      (line_pos_iterator.ctor_default : line_pos_iterator Iterator).position = 1 ∧
      (line_pos_iterator.ctor x).position = 1) ∧
    (1 ≤ ({ base := 3, line := 3, prev := LF } : line_pos_iterator Nat).position ∧
      ({ base := 3, line := 3, prev := LF } : line_pos_iterator Nat).position ≤ 3 + 1) ∧
    (∀ c it1,
      ({ base := 3, line := 3, prev := LF } : line_pos_iterator Nat).dereference
          [97, LF, LF, 98] = some (c, it1) →
      it1 = { base := 3, line := 3, prev := LF } ∧
      it1.position
        = ({ base := 3, line := 3, prev := LF } : line_pos_iterator Nat).position)) :=
  ⟨⟨Or.inl (by decide), by decide⟩,
    position_at_least_one [97, LF, LF, 98] 0 3 { base := 3, line := 3, prev := LF }
      (Or.inl (by decide)) (by decide)⟩

/-- C15. On a sequence shorter than `2 ^ 64 - 1` units and for `P ≤ |s|`, a fresh
iterator advanced from index 0 to `P` has `position() = 1` if and only if
`get_line_start(0, P)` is 0, and both hold exactly when `s[0..P)` holds no CR or LF. -/
theorem first_line_agreement (s : List Nat) (P : Nat) (hP : P ≤ s.length)
    (hlen : s.length < 2 ^ 64 - 1) :
    ∃ it r, advance s P (line_pos_iterator.ctor 0) = some it ∧
      get_line_start s 0 P = some r ∧
      (it.position = 1 ↔ r = 0) ∧
      (it.position = 1 ↔ ∀ k, k < P → ¬ newline_at s k) ∧
      (r = 0 ↔ ∀ k, k < P → ¬ newline_at s k) := by
  obtain ⟨it, hit⟩ := advance_total s P (line_pos_iterator.ctor 0)
    (by simp only [line_pos_iterator.ctor]; omega)
  obtain ⟨hline, hble⟩ := advance_fresh_line s P it hit
  obtain ⟨r, hr, hcase⟩ := get_line_start_cases s 0 P (Nat.zero_le _) hP
  have hpos : it.position = 1 ↔ ∀ k, k < P → ¬ newline_at s k := by
    rw [newline_at_iff_mem_take s P hP,
      ← bumps_eq_zero_iff (s.take P) 0 (by decide) (by decide)]
    show it.line = 1 ↔ _
    rw [hline]
    simp only [SIZE_RANGE]
    omega
  have hstart : r = 0 ↔ ∀ k, k < P → ¬ newline_at s k := by
    rcases hcase with ⟨j, _, hjP, hnl, _, hrj⟩ | ⟨hnone, hr0⟩
    · constructor
      · intro h; omega
      · intro h; exact absurd hnl (h j hjP)
    · exact ⟨fun _ k hk => hnone k (Nat.zero_le _) hk, fun _ => hr0⟩
  exact ⟨it, r, hit, hr, by rw [hpos, hstart], hpos, hstart⟩

/-- Witness of C15 on `"ab\nc"` with `P = 2`, on the first line. -/
theorem first_line_agreement_witness :
    (2 ≤ [97, 98, LF, 99].length ∧ [97, 98, LF, 99].length < 2 ^ 64 - 1) ∧
    (∃ it r, advance [97, 98, LF, 99] 2 (line_pos_iterator.ctor 0) = some it ∧
      get_line_start [97, 98, LF, 99] 0 2 = some r ∧
      (it.position = 1 ↔ r = 0) ∧
      (it.position = 1 ↔ ∀ k, k < 2 → ¬ newline_at [97, 98, LF, 99] k) ∧
      (r = 0 ↔ ∀ k, k < 2 → ¬ newline_at [97, 98, LF, 99] k)) :=
  ⟨by decide, first_line_agreement [97, 98, LF, 99] 2 (by decide) (by decide)⟩

/-- C2 (counterexample). On `"abc"` with `lower = 0` and `current = upper = 1`,
`s[current]` is `'b'`, not a CR or LF, yet the range returned is `[0, 1)`, which does
not hold `current`. -/
theorem get_current_line_is_piece_counterexample :
    (0 ≤ 1 ∧ 1 ≤ 1 ∧ 1 ≤ [97, 98, 99].length) ∧
    ¬ newline_at [97, 98, 99] 1 ∧
    get_current_line [97, 98, 99] 0 1 1 = some (0, 1) ∧
    ¬ (0 ≤ 1 ∧ 1 < 1) := by
  decide

end Spirit
